import Mathlib

/-!
Verification of the Code-Analy repository (AST-based Python code analyzer and
refactorer) against its natural-language specification.

The development shallowly embeds the two core modules:

* `src/code_analy/analyzer.py` — six tree/line based checks producing
  `CodeIssue` records;
* `src/code_analy/refactor.py` — four text refactoring operations plus the
  `apply_refactoring` entry point.

Python syntax trees are embedded as the inductive `PyNode` (covering exactly
the node kinds the checks inspect); source text is embedded as `List Char`
(the type `Str` below), and the `re` regular expressions used by the
refactorer are executed by a small backtracking matcher (`RE`, `reRun`) that
mirrors Python's leftmost / greedy semantics for the pattern features the
source actually uses (literals, character classes, `?`, `*`, `+` on classes,
word boundaries and end anchors).

`ast.parse` is an external dependency of the repository (the spec's
"SyntaxTree Adapter"); embedded functions that parse therefore take the parse
result as an explicit argument (`Option PyNode`, `none` being a syntax
error).
-/

namespace CodeAnaly

/-- Source text and source lines are lists of characters. -/
abbrev Str := List Char

/-- Python's `\s` class restricted to ASCII: the characters stripped by
`str.strip()` and matched by `re` whitespace, i.e. space, tab, newline,
carriage return, vertical tab and form feed. -/
def isPySpace (c : Char) : Bool :=
  c = ' ' || c = '\t' || c = '\n' || c = '\x0d' || c = '\x0b' || c = '\x0c'

/-- Python's `\w` class restricted to ASCII: letters, digits and underscore. -/
def isWordChar (c : Char) : Bool :=
  c.isAlphanum || c = '_'

/-- `str.lstrip()`. -/
def lstrip (s : Str) : Str := s.dropWhile isPySpace

/-- `str.rstrip()`. -/
def rstrip (s : Str) : Str := (s.reverse.dropWhile isPySpace).reverse

/-- `str.strip()`. -/
def strip (s : Str) : Str := rstrip (lstrip s)

/-- Auxiliary for `splitLines`: accumulates the current line (reversed). -/
def splitLinesAux (cur : Str) : Str → List Str
  | [] => [cur.reverse]
  | c :: t =>
    if c = '\n' then
      cur.reverse :: (match t with
        | [] => []
        | _ :: _ => splitLinesAux [] t)
    else
      splitLinesAux (c :: cur) t

/-- `str.splitlines()` for `\n`-separated text: splits at newlines and drops a
trailing empty piece, e.g. `"a\nb\n"` gives `["a", "b"]` and `""` gives `[]`.
(The Python original also splits at rarer separators such as `\r`; the texts
considered here use `\n`.) -/
def splitLines : Str → List Str
  | [] => []
  | c :: t => splitLinesAux [] (c :: t)

/-- `'\n'.join(lines)`. -/
def joinLines : List Str → Str
  | [] => []
  | [l] => l
  | l :: t => l ++ '\n' :: joinLines t

/-- `sub in s`: substring containment test (Python's `in` on strings). -/
def containsSub (sub s : Str) : Bool :=
  (List.range (s.length + 1)).any (fun i => sub.isPrefixOf (s.drop i))

/-!
## The regular-expression engine

The refactorer uses `re.match`, `re.search` and `re.sub` with patterns built
from literals, `\s*`, `\s+`, `\S+`, `.*`, `,?`, `\b`, `\w` and `$`.  The
engine below implements exactly these features with Python's backtracking
preference order: a match attempt returns the list of possible
(last-consumed-character, remaining-input) states, most preferred first, so
the head of the list is the match Python's engine produces.
-/

/-- Regular expressions, covering the pattern features used in
`refactor.py`. -/
inductive RE where
  /-- matches the empty string -/
  | eps : RE
  /-- a literal string (the result of `re.escape` on an identifier) -/
  | lit (l : Str) : RE
  /-- a single character of a class, e.g. `\s`, `\S`, `\w`, `.` -/
  | cls (p : Char → Bool) : RE
  /-- `r?`, greedy -/
  | opt (r : RE) : RE
  /-- `c*` for a character class `c`, greedy -/
  | starCls (p : Char → Bool) : RE
  /-- `c+` for a character class `c`, greedy -/
  | plusCls (p : Char → Bool) : RE
  /-- concatenation -/
  | cat (a b : RE) : RE
  /-- `\b`, a word boundary -/
  | bound : RE
  /-- `$`, end of input (or just before a final newline) -/
  | eol : RE

/-- Match a literal: consumes `l` from the input, tracking the last consumed
character (needed for later `\b` tests). -/
def litRun (l : Str) (prev : Option Char) (s : Str) : Option (Option Char × Str) :=
  match l, s with
  | [], _ => some (prev, s)
  | _ :: _, [] => none
  | c :: cs, d :: t => if c = d then litRun cs (some c) t else none

/-- States reachable by a greedy class star: consume as many `p`-characters as
possible, preferring longer consumption (Python's greedy `*`). -/
def spanStates (p : Char → Bool) (prev : Option Char) (s : Str) :
    List (Option Char × Str) :=
  match s with
  | [] => [(prev, [])]
  | c :: t =>
    if p c then spanStates p (some c) t ++ [(prev, c :: t)]
    else [(prev, c :: t)]

/-- Python's `\b`: true iff exactly one side of the current position is a word
character (the edges of the string count as non-word). -/
def atBoundary (prev : Option Char) (s : Str) : Bool :=
  let pw := match prev with | some c => isWordChar c | none => false
  let nw := match s with | c :: _ => isWordChar c | [] => false
  pw != nw

/-- The backtracking matcher.  `reRun r prev s` returns the states the engine
can be in after matching `r` at the start of `s` (`prev` is the character just
before `s` in the full subject string), most preferred first.  The head of the
result is the match Python's engine commits to. -/
def reRun : RE → Option Char → Str → List (Option Char × Str)
  | .eps, prev, s => [(prev, s)]
  | .lit l, prev, s =>
    match litRun l prev s with
    | some st => [st]
    | none => []
  | .cls p, _, s =>
    match s with
    | [] => []
    | c :: t => if p c then [(some c, t)] else []
  | .opt r, prev, s => reRun r prev s ++ [(prev, s)]
  | .starCls p, prev, s => spanStates p prev s
  | .plusCls p, _, s =>
    match s with
    | [] => []
    | c :: t => if p c then spanStates p (some c) t else []
  | .cat a b, prev, s => (reRun a prev s).flatMap (fun st => reRun b st.1 st.2)
  | .bound, prev, s => if atBoundary prev s then [(prev, s)] else []
  | .eol, prev, s =>
    match s with
    | [] => [(prev, s)]
    | ['\n'] => [(prev, s)]
    | _ => []

/-- `re.match(r, line)` viewed as a Boolean: does `r` match at the start of
`line`?  (Anchoring at the end, when the pattern has one, is expressed by an
`RE.eol` inside `r`.) -/
def reMatchB (r : RE) (line : Str) : Bool :=
  !(reRun r none line).isEmpty

/-- `re.search(r, line)` viewed as a Boolean: try every start position from
the left.  `prev` tracks the character before the current position. -/
def reSearchAux (r : RE) (prev : Option Char) (s : Str) : Bool :=
  !(reRun r prev s).isEmpty ||
    (match s with
     | [] => false
     | c :: t => reSearchAux r (some c) t)

/-- `re.search(r, line)` as a Boolean. -/
def reSearchB (r : RE) (line : Str) : Bool :=
  reSearchAux r none line

/-- One step of `re.sub`: at the current position, the preferred match of `r`
if any.  Returns the state after the match. -/
def subHere (r : RE) (prev : Option Char) (s : Str) : Option (Option Char × Str) :=
  (reRun r prev s).head?

/-- The scanning loop of `re.sub` (replace all, non-overlapping, left to
right; after an empty match the next character is copied, as in Python).
Each step either consumes at least one input character or ends the scan, so
the loop runs at most `length + 1` times; the bound is carried as an explicit
fuel argument so that the definition computes by reduction.  `subAll` below
always supplies sufficient fuel, so the fuel-exhausted branch is never
taken. -/
def subAllGo (r : RE) (repl : Str) : Nat → Option Char → Str → Str
  | 0, _, s => s
  | fuel + 1, prev, s =>
    match subHere r prev s with
    | some (prev', rest) =>
      if rest.length < s.length then
        repl ++ subAllGo r repl fuel prev' rest
      else
        -- empty match: substitute, then copy one character and continue
        repl ++
          (match s with
           | [] => []
           | c :: t => c :: subAllGo r repl fuel (some c) t)
    | none =>
      match s with
      | [] => []
      | c :: t => c :: subAllGo r repl fuel (some c) t

/-- `re.sub(r, repl, s)`. -/
def subAll (r : RE) (repl : Str) (s : Str) : Str :=
  subAllGo r repl (s.length + 1) none s

/-- `re.sub(r, repl, s, count=1)`: replace only the leftmost match. -/
def subFirst (r : RE) (repl : Str) (prev : Option Char) (s : Str) : Str :=
  match subHere r prev s with
  | some (_, rest) =>
    if rest.length < s.length then
      repl ++ rest
    else
      match s with
      | [] => repl
      | c :: t => repl ++ c :: t
  | none =>
    match s with
    | [] => []
    | c :: t => c :: subFirst r repl (some c) t

/-!
## The syntax-tree embedding

`PyNode` embeds the Python `ast` node kinds that `analyzer.py` and
`refactor.py` inspect.  Each statement/expression node carries its `lineno`
and `col_offset`.  Statement lists (`body`, `orelse`, `finalbody`, …) are the
same fields as in the Python AST; expression children that the checks look at
(`Name`, `Attribute`, `Call`, …) are embedded as nodes too, so `ast.walk`
visits them.
-/

/-- One `ast.arg`: a parameter name. -/
structure PyArg where
  arg : String
deriving DecidableEq, Repr

/-- The `ast.arguments` record of a callable (decorators and defaults carry no
names the checks read, and are omitted). -/
structure PyArguments where
  posonlyargs : List PyArg
  args : List PyArg
  vararg : Option PyArg
  kwonlyargs : List PyArg
  kwarg : Option PyArg
deriving DecidableEq, Repr

/-- One `ast.alias` of an import statement: `name` optionally bound `as
asname`. -/
structure PyAlias where
  name : String
  asname : Option String
deriving DecidableEq, Repr

/-- The embedded Python AST.  (`With` lists the context expressions of its
items directly; the intermediate `withitem` wrapper node carries nothing any
check reads.) -/
inductive PyNode where
  | Module (body : List PyNode)
  | FunctionDef (name : String) (args : PyArguments) (body : List PyNode)
      (lineno col_offset : Nat)
  | AsyncFunctionDef (name : String) (args : PyArguments) (body : List PyNode)
      (lineno col_offset : Nat)
  | ClassDef (name : String) (body : List PyNode) (lineno col_offset : Nat)
  | Import (names : List PyAlias) (lineno col_offset : Nat)
  | ImportFrom (module : String) (names : List PyAlias) (lineno col_offset : Nat)
  | Return (value : List PyNode) (lineno col_offset : Nat)
  | Raise (exc : List PyNode) (lineno col_offset : Nat)
  | Break (lineno col_offset : Nat)
  | Continue (lineno col_offset : Nat)
  | If (test : PyNode) (body orelse : List PyNode) (lineno col_offset : Nat)
  | For (target iter : PyNode) (body orelse : List PyNode) (lineno col_offset : Nat)
  | While (test : PyNode) (body orelse : List PyNode) (lineno col_offset : Nat)
  | With (items : List PyNode) (body : List PyNode) (lineno col_offset : Nat)
  | Try (body : List PyNode) (handlers : List PyNode) (orelse finalbody : List PyNode)
      (lineno col_offset : Nat)
  | ExceptHandler (body : List PyNode) (lineno col_offset : Nat)
  | ExprStmt (value : PyNode) (lineno col_offset : Nat)
  | Assign (targets : List PyNode) (value : PyNode) (lineno col_offset : Nat)
  | AugAssign (target : PyNode) (value : PyNode) (lineno col_offset : Nat)
  | Pass (lineno col_offset : Nat)
  | Name (id : String) (lineno col_offset : Nat)
  | Attribute (value : PyNode) (attr : String) (lineno col_offset : Nat)
  | Constant (lineno col_offset : Nat)
  | Call (func : PyNode) (args : List PyNode) (lineno col_offset : Nat)

namespace PyNode

/-- `ast.iter_child_nodes`: the direct AST children of a node, in field
order. -/
def children : PyNode → List PyNode
  | .Module body => body
  | .FunctionDef _ _ body _ _ => body
  | .AsyncFunctionDef _ _ body _ _ => body
  | .ClassDef _ body _ _ => body
  | .Import _ _ _ => []
  | .ImportFrom _ _ _ _ => []
  | .Return value _ _ => value
  | .Raise exc _ _ => exc
  | .Break _ _ => []
  | .Continue _ _ => []
  | .If test body orelse _ _ => test :: body ++ orelse
  | .For target iter body orelse _ _ => target :: iter :: body ++ orelse
  | .While test body orelse _ _ => test :: body ++ orelse
  | .With items body _ _ => items ++ body
  | .Try body handlers orelse finalbody _ _ => body ++ handlers ++ orelse ++ finalbody
  | .ExceptHandler body _ _ => body
  | .ExprStmt value _ _ => [value]
  | .Assign targets value _ _ => targets ++ [value]
  | .AugAssign target value _ _ => [target, value]
  | .Pass _ _ => []
  | .Name _ _ _ => []
  | .Attribute value _ _ _ => [value]
  | .Constant _ _ => []
  | .Call func args _ _ => func :: args

mutual

/-- `ast.walk(n)` as a list: the node itself followed by all of its
descendants, each subtree occurrence exactly once.  The Python original
yields nodes in breadth-first order; this embedding uses depth-first
(pre-)order.  Every check below either consumes the walk as a set
(membership, `any`) or produces per-node results whose claims are stated per
node, so the difference in ordering between the two traversals is not
observable in the theorems. -/
def walk : PyNode → List PyNode
  | .Module body => .Module body :: walkList body
  | .FunctionDef name args body l c =>
      .FunctionDef name args body l c :: walkList body
  | .AsyncFunctionDef name args body l c =>
      .AsyncFunctionDef name args body l c :: walkList body
  | .ClassDef name body l c => .ClassDef name body l c :: walkList body
  | .Import names l c => [.Import names l c]
  | .ImportFrom m names l c => [.ImportFrom m names l c]
  | .Return value l c => .Return value l c :: walkList value
  | .Raise exc l c => .Raise exc l c :: walkList exc
  | .Break l c => [.Break l c]
  | .Continue l c => [.Continue l c]
  | .If test body orelse l c =>
      .If test body orelse l c :: (walk test ++ walkList body ++ walkList orelse)
  | .For tgt iter body orelse l c =>
      .For tgt iter body orelse l c ::
        (walk tgt ++ walk iter ++ walkList body ++ walkList orelse)
  | .While test body orelse l c =>
      .While test body orelse l c :: (walk test ++ walkList body ++ walkList orelse)
  | .With items body l c => .With items body l c :: (walkList items ++ walkList body)
  | .Try body handlers orelse finalbody l c =>
      .Try body handlers orelse finalbody l c ::
        (walkList body ++ walkList handlers ++ walkList orelse ++ walkList finalbody)
  | .ExceptHandler body l c => .ExceptHandler body l c :: walkList body
  | .ExprStmt value l c => .ExprStmt value l c :: walk value
  | .Assign targets value l c => .Assign targets value l c :: (walkList targets ++ walk value)
  | .AugAssign target value l c => .AugAssign target value l c :: (walk target ++ walk value)
  | .Pass l c => [.Pass l c]
  | .Name id l c => [.Name id l c]
  | .Attribute value attr l c => .Attribute value attr l c :: walk value
  | .Constant l c => [.Constant l c]
  | .Call func args l c => .Call func args l c :: (walk func ++ walkList args)

/-- `walk` of every node of a list, concatenated. -/
def walkList : List PyNode → List PyNode
  | [] => []
  | n :: rest => walk n ++ walkList rest

end

mutual

/-- Structural equality of embedded nodes: the meaning of Python's `in`
(`__eq__`-based membership) used by `_is_method`'s `node in ast.walk(parent)`
test.  (CPython compares AST nodes by identity; on a tree produced by one
`ast.parse` call, the subtree occurrences tested are exactly the structurally
distinguishable positions the checks quantify over.) -/
def nodeBEq : PyNode → PyNode → Bool
  | .Module b1, .Module b2 => nodeListBEq b1 b2
  | .FunctionDef n1 a1 b1 l1 c1, .FunctionDef n2 a2 b2 l2 c2 =>
      n1 == n2 && a1 == a2 && nodeListBEq b1 b2 && l1 == l2 && c1 == c2
  | .AsyncFunctionDef n1 a1 b1 l1 c1, .AsyncFunctionDef n2 a2 b2 l2 c2 =>
      n1 == n2 && a1 == a2 && nodeListBEq b1 b2 && l1 == l2 && c1 == c2
  | .ClassDef n1 b1 l1 c1, .ClassDef n2 b2 l2 c2 =>
      n1 == n2 && nodeListBEq b1 b2 && l1 == l2 && c1 == c2
  | .Import ns1 l1 c1, .Import ns2 l2 c2 => ns1 == ns2 && l1 == l2 && c1 == c2
  | .ImportFrom m1 ns1 l1 c1, .ImportFrom m2 ns2 l2 c2 =>
      m1 == m2 && ns1 == ns2 && l1 == l2 && c1 == c2
  | .Return v1 l1 c1, .Return v2 l2 c2 => nodeListBEq v1 v2 && l1 == l2 && c1 == c2
  | .Raise e1 l1 c1, .Raise e2 l2 c2 => nodeListBEq e1 e2 && l1 == l2 && c1 == c2
  | .Break l1 c1, .Break l2 c2 => l1 == l2 && c1 == c2
  | .Continue l1 c1, .Continue l2 c2 => l1 == l2 && c1 == c2
  | .If t1 b1 o1 l1 c1, .If t2 b2 o2 l2 c2 =>
      nodeBEq t1 t2 && nodeListBEq b1 b2 && nodeListBEq o1 o2 && l1 == l2 && c1 == c2
  | .For tg1 it1 b1 o1 l1 c1, .For tg2 it2 b2 o2 l2 c2 =>
      nodeBEq tg1 tg2 && nodeBEq it1 it2 && nodeListBEq b1 b2 && nodeListBEq o1 o2 &&
        l1 == l2 && c1 == c2
  | .While t1 b1 o1 l1 c1, .While t2 b2 o2 l2 c2 =>
      nodeBEq t1 t2 && nodeListBEq b1 b2 && nodeListBEq o1 o2 && l1 == l2 && c1 == c2
  | .With i1 b1 l1 c1, .With i2 b2 l2 c2 =>
      nodeListBEq i1 i2 && nodeListBEq b1 b2 && l1 == l2 && c1 == c2
  | .Try b1 h1 o1 f1 l1 c1, .Try b2 h2 o2 f2 l2 c2 =>
      nodeListBEq b1 b2 && nodeListBEq h1 h2 && nodeListBEq o1 o2 && nodeListBEq f1 f2 &&
        l1 == l2 && c1 == c2
  | .ExceptHandler b1 l1 c1, .ExceptHandler b2 l2 c2 =>
      nodeListBEq b1 b2 && l1 == l2 && c1 == c2
  | .ExprStmt v1 l1 c1, .ExprStmt v2 l2 c2 => nodeBEq v1 v2 && l1 == l2 && c1 == c2
  | .Assign t1 v1 l1 c1, .Assign t2 v2 l2 c2 =>
      nodeListBEq t1 t2 && nodeBEq v1 v2 && l1 == l2 && c1 == c2
  | .AugAssign t1 v1 l1 c1, .AugAssign t2 v2 l2 c2 =>
      nodeBEq t1 t2 && nodeBEq v1 v2 && l1 == l2 && c1 == c2
  | .Pass l1 c1, .Pass l2 c2 => l1 == l2 && c1 == c2
  | .Name i1 l1 c1, .Name i2 l2 c2 => i1 == i2 && l1 == l2 && c1 == c2
  | .Attribute v1 a1 l1 c1, .Attribute v2 a2 l2 c2 =>
      nodeBEq v1 v2 && a1 == a2 && l1 == l2 && c1 == c2
  | .Constant l1 c1, .Constant l2 c2 => l1 == l2 && c1 == c2
  | .Call f1 a1 l1 c1, .Call f2 a2 l2 c2 =>
      nodeBEq f1 f2 && nodeListBEq a1 a2 && l1 == l2 && c1 == c2
  | _, _ => false

/-- Elementwise `nodeBEq` of node lists. -/
def nodeListBEq : List PyNode → List PyNode → Bool
  | [], [] => true
  | x :: xs, y :: ys => nodeBEq x y && nodeListBEq xs ys
  | _, _ => false

end

end PyNode

open PyNode

/-!
## The issue detector (`analyzer.py`)

Each `_check_*` method of `CodeAnalyzer` becomes a function from the parsed
tree (and, for the duplicate detector, the raw source) to the list of issues
it appends, mirroring the Python loop bodies.  The `long_method` check and
the `analyze` aggregator are not embedded: no claim mentions them, and the
former needs the `end_lineno` position attribute no claim reads.
-/

/-- `CodeIssue` from `analyzer.py`. -/
structure CodeIssue where
  line : Nat
  column : Nat
  issue_type : String
  message : String
  severity : String := "warning"
deriving DecidableEq, Repr

/-- The `lineno` attribute of a node (0 for `Module`, which has none). -/
def nodeLineno : PyNode → Nat
  | .Module _ => 0
  | .FunctionDef _ _ _ l _ => l
  | .AsyncFunctionDef _ _ _ l _ => l
  | .ClassDef _ _ l _ => l
  | .Import _ l _ => l
  | .ImportFrom _ _ l _ => l
  | .Return _ l _ => l
  | .Raise _ l _ => l
  | .Break l _ => l
  | .Continue l _ => l
  | .If _ _ _ l _ => l
  | .For _ _ _ _ l _ => l
  | .While _ _ _ l _ => l
  | .With _ _ l _ => l
  | .Try _ _ _ _ l _ => l
  | .ExceptHandler _ l _ => l
  | .ExprStmt _ l _ => l
  | .Assign _ _ l _ => l
  | .AugAssign _ _ l _ => l
  | .Pass l _ => l
  | .Name _ l _ => l
  | .Attribute _ _ l _ => l
  | .Constant l _ => l
  | .Call _ _ l _ => l

/-- The `col_offset` attribute of a node (0 for `Module`). -/
def nodeCol : PyNode → Nat
  | .Module _ => 0
  | .FunctionDef _ _ _ _ c => c
  | .AsyncFunctionDef _ _ _ _ c => c
  | .ClassDef _ _ _ c => c
  | .Import _ _ c => c
  | .ImportFrom _ _ _ c => c
  | .Return _ _ c => c
  | .Raise _ _ c => c
  | .Break _ c => c
  | .Continue _ c => c
  | .If _ _ _ _ c => c
  | .For _ _ _ _ _ c => c
  | .While _ _ _ _ c => c
  | .With _ _ _ c => c
  | .Try _ _ _ _ _ c => c
  | .ExceptHandler _ _ c => c
  | .ExprStmt _ _ c => c
  | .Assign _ _ _ c => c
  | .AugAssign _ _ _ c => c
  | .Pass _ c => c
  | .Name _ _ c => c
  | .Attribute _ _ _ c => c
  | .Constant _ c => c
  | .Call _ _ _ c => c

/-- `CodeAnalyzer._is_method`: walk the whole tree looking for a `ClassDef`
whose own walk contains the given node. -/
def is_method (tree node : PyNode) : Bool :=
  (walk tree).any fun parent =>
    match parent with
    | .ClassDef _ _ _ _ => (walk parent).any fun m => nodeBEq m node
    | _ => false

/-- The issue (if any) `_check_too_many_parameters` emits for one callable
node: `len(args.args)`, minus one when `_is_method` holds and the first
entry of `args.args` is literally `self` or `cls`, plus the positional-only
and keyword-only counts (`*args`/`**kwargs` are never counted), compared
against `max_params`. -/
def paramIssueFor (tree : PyNode) (max_params : Nat) (name : String)
    (args : PyArguments) (lineno col : Nat) (n : PyNode) : Option CodeIssue :=
  let param_count := args.args.length
  let param_count :=
    if is_method tree n && decide (0 < param_count) &&
        (args.args.head?.elim false fun a => a.arg == "self" || a.arg == "cls") then
      param_count - 1
    else param_count
  let param_count := param_count + args.posonlyargs.length + args.kwonlyargs.length
  if param_count > max_params then
    some ⟨lineno, col, "too_many_parameters",
      "Function '" ++ name ++ "' has " ++ toString param_count ++
        " parameters (max: " ++ toString max_params ++ ")", "warning"⟩
  else none

/-- `CodeAnalyzer._check_too_many_parameters` (default `max_params = 5`). -/
def check_too_many_parameters (tree : PyNode) (max_params : Nat := 5) :
    List CodeIssue :=
  (walk tree).filterMap fun n =>
    match n with
    | .FunctionDef name args _ lineno col =>
        paramIssueFor tree max_params name args lineno col n
    | .AsyncFunctionDef name args _ lineno col =>
        paramIssueFor tree max_params name args lineno col n
    | _ => none

/-- The name an `ast.alias` binds: `asname` if present, else `name`. -/
def aliasBound (a : PyAlias) : String := a.asname.getD a.name

/-- Python `dict` assignment on an association list: overwrite in place if
the key is present (keeping its position), else append. -/
def assocUpdate (m : List (String × PyNode)) (k : String) (v : PyNode) :
    List (String × PyNode) :=
  match m with
  | [] => [(k, v)]
  | (k', v') :: t => if k' = k then (k, v) :: t else (k', v') :: assocUpdate t k v

/-- One step of the import-table collection: an `Import`/`ImportFrom`
records each bound alias against the statement node. -/
def importStep (acc : List (String × PyNode)) (n : PyNode) :
    List (String × PyNode) :=
  match n with
  | .Import names _ _ => names.foldl (fun acc a => assocUpdate acc (aliasBound a) n) acc
  | .ImportFrom _ names _ _ =>
      names.foldl (fun acc a => assocUpdate acc (aliasBound a) n) acc
  | _ => acc

/-- The import-binding table of `_check_unused_imports`: one entry per bound
name, mapping it to its declaring statement, later bindings overwriting
earlier ones. -/
def collectImports (tree : PyNode) : List (String × PyNode) :=
  (walk tree).foldl importStep []

/-- Set insertion (`set.add`): membership is all that is ever queried. -/
def insertSet (s : List String) (x : String) : List String :=
  if x ∈ s then s else s ++ [x]

/-- One step of the used-name collection: a bare `Name` adds its
identifier, an `Attribute` whose value is a `Name` adds that base
identifier. -/
def usedStep (acc : List String) (n : PyNode) : List String :=
  match n with
  | .Name id _ _ => insertSet acc id
  | .Attribute value _ _ _ =>
      match value with
      | .Name id _ _ => insertSet acc id
      | _ => acc
  | _ => acc

/-- The used-name set of `_check_unused_imports`: every bare `Name`
identifier, plus the base identifier of every `Attribute` whose value is a
`Name`. -/
def usedNames (tree : PyNode) : List String :=
  (walk tree).foldl usedStep []

/-- `CodeAnalyzer._check_unused_imports`. -/
def check_unused_imports (tree : PyNode) : List CodeIssue :=
  (collectImports tree).filterMap fun kv =>
    if kv.1 = "*" then none
    else if kv.1 ∈ usedNames tree then none
    else some ⟨nodeLineno kv.2, nodeCol kv.2, "unused_import",
      "Unused import: '" ++ kv.1 ++ "'", "info"⟩

/-- `CodeAnalyzer._check_unreachable_code`: scan one statement list; at the
first `Return`/`Raise` (or `Break`/`Continue`) that is not the last
statement, emit one issue at the next statement and stop. -/
def check_unreachable_code : List PyNode → List CodeIssue
  | [] => []
  | [_] => []
  | stmt :: next :: rest =>
    match stmt with
    | .Return _ _ _ =>
        [⟨nodeLineno next, nodeCol next, "dead_code",
          "Unreachable code after return/raise statement", "warning"⟩]
    | .Raise _ _ _ =>
        [⟨nodeLineno next, nodeCol next, "dead_code",
          "Unreachable code after return/raise statement", "warning"⟩]
    | .Break _ _ =>
        [⟨nodeLineno next, nodeCol next, "dead_code",
          "Unreachable code after break/continue statement", "warning"⟩]
    | .Continue _ _ =>
        [⟨nodeLineno next, nodeCol next, "dead_code",
          "Unreachable code after break/continue statement", "warning"⟩]
    | _ => check_unreachable_code (next :: rest)

/-- `CodeAnalyzer._check_dead_code`: scan the bodies of callables and of
`If`/`For`/`While`/`With` nodes, plus the `orelse` list where the node has
one.  The Python original also asks `hasattr(node, 'finalbody')`, but none
of the four matched statement kinds has a `finalbody` attribute, and `Try`
is not in the `isinstance` tuple, so `try`/`except`/`finally` suites are
never scanned. -/
def check_dead_code (tree : PyNode) : List CodeIssue :=
  (walk tree).flatMap fun n =>
    match n with
    | .FunctionDef _ _ body _ _ =>
        if body.isEmpty then [] else check_unreachable_code body
    | .AsyncFunctionDef _ _ body _ _ =>
        if body.isEmpty then [] else check_unreachable_code body
    | .If _ body orelse _ _ =>
        (if body.isEmpty then [] else check_unreachable_code body) ++
          (if orelse.isEmpty then [] else check_unreachable_code orelse)
    | .For _ _ body orelse _ _ =>
        (if body.isEmpty then [] else check_unreachable_code body) ++
          (if orelse.isEmpty then [] else check_unreachable_code orelse)
    | .While _ body orelse _ _ =>
        (if body.isEmpty then [] else check_unreachable_code body) ++
          (if orelse.isEmpty then [] else check_unreachable_code orelse)
    | .With _ body _ _ =>
        if body.isEmpty then [] else check_unreachable_code body
    | _ => []

/-- Does `calculate_depth` increment the depth when entering this child?
(`If`/`For`/`While`/`With`/`Try`.) -/
def isCtrlNode : PyNode → Bool
  | .If _ _ _ _ _ => true
  | .For _ _ _ _ _ _ => true
  | .While _ _ _ _ _ => true
  | .With _ _ _ _ => true
  | .Try _ _ _ _ _ _ => true
  | _ => false

mutual

/-- The inner `calculate_depth` of `_check_deep_nesting`: the maximum over
all recursively visited children of the depth reached, where entering a
control-flow child adds one and any other child (including nested callables
and classes) passes the current depth through unchanged. -/
def calculate_depth : PyNode → Nat → Nat
  | .Module body, d => calculate_depthList body d
  | .FunctionDef _ _ body _ _, d => calculate_depthList body d
  | .AsyncFunctionDef _ _ body _ _, d => calculate_depthList body d
  | .ClassDef _ body _ _, d => calculate_depthList body d
  | .Import _ _ _, d => d
  | .ImportFrom _ _ _ _, d => d
  | .Return value _ _, d => calculate_depthList value d
  | .Raise exc _ _, d => calculate_depthList exc d
  | .Break _ _, d => d
  | .Continue _ _, d => d
  | .If test body orelse _ _, d =>
      max (calculate_depth test (if isCtrlNode test then d + 1 else d))
        (max (calculate_depthList body d) (calculate_depthList orelse d))
  | .For tgt iter body orelse _ _, d =>
      max (calculate_depth tgt (if isCtrlNode tgt then d + 1 else d))
        (max (calculate_depth iter (if isCtrlNode iter then d + 1 else d))
          (max (calculate_depthList body d) (calculate_depthList orelse d)))
  | .While test body orelse _ _, d =>
      max (calculate_depth test (if isCtrlNode test then d + 1 else d))
        (max (calculate_depthList body d) (calculate_depthList orelse d))
  | .With items body _ _, d =>
      max (calculate_depthList items d) (calculate_depthList body d)
  | .Try body handlers orelse finalbody _ _, d =>
      max (calculate_depthList body d)
        (max (calculate_depthList handlers d)
          (max (calculate_depthList orelse d) (calculate_depthList finalbody d)))
  | .ExceptHandler body _ _, d => calculate_depthList body d
  | .ExprStmt value _ _, d =>
      calculate_depth value (if isCtrlNode value then d + 1 else d)
  | .Assign targets value _ _, d =>
      max (calculate_depthList targets d)
        (calculate_depth value (if isCtrlNode value then d + 1 else d))
  | .AugAssign target value _ _, d =>
      max (calculate_depth target (if isCtrlNode target then d + 1 else d))
        (calculate_depth value (if isCtrlNode value then d + 1 else d))
  | .Pass _ _, d => d
  | .Name _ _ _, d => d
  | .Attribute value _ _ _, d =>
      calculate_depth value (if isCtrlNode value then d + 1 else d)
  | .Constant _ _, d => d
  | .Call func args _ _, d =>
      max (calculate_depth func (if isCtrlNode func then d + 1 else d))
        (calculate_depthList args d)

/-- `calculate_depth` folded over a child list (each child entered at the
current depth, plus one if it is a control-flow construct); the running
maximum starts from the current depth. -/
def calculate_depthList : List PyNode → Nat → Nat
  | [], d => d
  | c :: cs, d =>
      max (calculate_depth c (if isCtrlNode c then d + 1 else d))
        (calculate_depthList cs d)

end

/-- `CodeAnalyzer._check_deep_nesting` (default `max_depth = 3`). -/
def check_deep_nesting (tree : PyNode) (max_depth : Nat := 3) : List CodeIssue :=
  (walk tree).filterMap fun n =>
    match n with
    | .FunctionDef name _ _ lineno col =>
        let depth := calculate_depth n 0
        if depth > max_depth then
          some ⟨lineno, col, "deep_nesting",
            "Function '" ++ name ++ "' has deep nesting (depth: " ++ toString depth ++
              ", max: " ++ toString max_depth ++ ")", "warning"⟩
        else none
    | .AsyncFunctionDef name _ _ lineno col =>
        let depth := calculate_depth n 0
        if depth > max_depth then
          some ⟨lineno, col, "deep_nesting",
            "Function '" ++ name ++ "' has deep nesting (depth: " ++ toString depth ++
              ", max: " ++ toString max_depth ++ ")", "warning"⟩
        else none
    | _ => none

/-- `defaultdict(list)` append on an association list keyed by block digests:
append the occurrence to the key's list, first insertion fixing the key's
position (Python dict iteration order). -/
def addOcc (tbl : List (Str × List (Nat × Nat))) (k : Str) (v : Nat × Nat) :
    List (Str × List (Nat × Nat)) :=
  match tbl with
  | [] => [(k, [v])]
  | (k', vs) :: t => if k' = k then (k', vs ++ [v]) :: t else (k', vs) :: addOcc t k v

/-- The normalised text of the window `source_lines[start:endl]`: each line
stripped, blank and `#`-comment lines dropped. -/
def blockContentLines (source_lines : List Str) (start endl : Nat) : List Str :=
  ((source_lines.drop start).take (endl - start)).filterMap fun l =>
    let s := strip l
    if s.isEmpty then none
    else if s.head? = some '#' then none
    else some s

/-- The block-hash table of `_check_duplicate_code`: for every window of
`min_lines` to `min_lines+19` raw lines whose normalised content keeps at
least `min_lines` lines, record `(start+1, endl)` under the content digest.
The MD5 digest of the Python original is modelled as the normalised block
text itself (distinct texts give distinct digests). -/
def blockHashes (source_lines : List Str) (min_lines : Nat) :
    List (Str × List (Nat × Nat)) :=
  (List.range source_lines.length).foldl
    (fun tbl start =>
      (List.range' (start + min_lines)
          (min (start + min_lines + 20) (source_lines.length + 1) - (start + min_lines))).foldl
        (fun tbl endl =>
          let block_lines := blockContentLines source_lines start endl
          if block_lines.length ≥ min_lines then
            addOcc tbl (joinLines block_lines) (start + 1, endl)
          else tbl)
        tbl)
    []

/-- One iteration of the reporting loop of `_check_duplicate_code`: emit
one `duplicate_code` issue when the digest has more than one recorded
occurrence and is not in the `reported_blocks` set, at the first
occurrence, with `first_end - first_start` as the stated line count. -/
def reportStep (acc : List CodeIssue × List Str) (kv : Str × List (Nat × Nat)) :
    List CodeIssue × List Str :=
  if kv.2.length > 1 && !(acc.2.contains kv.1) then
    let first := kv.2.head?.getD (0, 0)
    (acc.1 ++ [⟨first.1, 0, "duplicate_code",
        "Duplicate code block found (" ++ toString (first.2 - first.1) ++
          " lines, " ++ toString kv.2.length ++ " occurrences)", "info"⟩],
      acc.2 ++ [kv.1])
  else acc

/-- The reporting loop of `_check_duplicate_code` (the `reported_blocks`
set of the original is carried along faithfully). -/
def report_duplicates (tbl : List (Str × List (Nat × Nat))) : List CodeIssue :=
  (tbl.foldl reportStep ([], [])).1

/-- `CodeAnalyzer._check_duplicate_code` (default `min_lines = 5`). -/
def check_duplicate_code (src : Str) (min_lines : Nat := 5) : List CodeIssue :=
  report_duplicates (blockHashes (splitLines src) min_lines)

/-!
## The refactoring engine (`refactor.py`)

The regular expressions of `refactor.py`, spelt with the `RE` constructors
(`re.escape` of an identifier is a literal):
-/

/-- `rf'^\s*import\s+{name}\s*$'` (used with `re.match`). -/
def importLineRE (u : Str) : RE :=
  .cat (.starCls isPySpace) (.cat (.lit "import".data)
    (.cat (.plusCls isPySpace) (.cat (.lit u) (.cat (.starCls isPySpace) .eol))))

/-- `rf'\bfrom\s+\S+\s+import\s+.*\b{name}\b'` (used with `re.search`). -/
def fromImportRE (u : Str) : RE :=
  .cat .bound (.cat (.lit "from".data)
    (.cat (.plusCls isPySpace) (.cat (.plusCls fun c => !isPySpace c)
      (.cat (.plusCls isPySpace) (.cat (.lit "import".data)
        (.cat (.plusCls isPySpace) (.cat (.starCls fun c => c != '\n')
          (.cat .bound (.cat (.lit u) .bound)))))))))

/-- `rf',?\s*{name}\s*,?'` (used with `re.sub`). -/
def commaNameRE (u : Str) : RE :=
  .cat (.opt (.lit ",".data)) (.cat (.starCls isPySpace)
    (.cat (.lit u) (.cat (.starCls isPySpace) (.opt (.lit ",".data)))))

/-- `r',\s*$'` (used with `re.sub` to drop a trailing comma). -/
def trailingCommaRE : RE :=
  .cat (.lit ",".data) (.cat (.starCls isPySpace) .eol)

/-- `r'import\s*,'` (used with `re.sub` to drop a leading comma after
`import`). -/
def importCommaRE : RE :=
  .cat (.lit "import".data) (.cat (.starCls isPySpace) (.lit ",".data))

/-- `r'import\s+\w'` (used with `re.search` to test whether any imported
name remains). -/
def importWordRE : RE :=
  .cat (.lit "import".data) (.cat (.plusCls isPySpace) (.cls isWordChar))

/-- `r'\b{name}\b'` (whole-word occurrence, used by `rename_variable`). -/
def wordRE (u : Str) : RE := .cat .bound (.cat (.lit u) .bound)

/-- `RefactoringResult` from `refactor.py` (`apply_refactoring` returns the
same five fields as a dictionary). -/
structure RefactoringResult where
  success : Bool
  message : String
  original_code : Str
  refactored_code : Str
  changes_made : List String
deriving DecidableEq, Repr

/-- The inner `for unused in unused_imports` loop of
`remove_unused_imports`, applied to one line: returns `should_keep`, the
(possibly rewritten) line, and the names appended to `imports_removed`.
The loop `break`s at the first name that matches, so at most one requested
name is processed per line. -/
def removeLoopOnLine (unused_imports : List Str) (line : Str) :
    Bool × Str × List Str :=
  match unused_imports with
  | [] => (true, line, [])
  | u :: rest =>
    if reMatchB (importLineRE u) line then
      (false, line, [u])
    else if reSearchB (fromImportRE u) line then
      if line.contains ',' then
        let line := subAll (commaNameRE u) [] line
        let line := subAll trailingCommaRE [] line
        let line := subAll importCommaRE "import ".data line
        let should_keep :=
          !(containsSub "import".data line && !reSearchB importWordRE line)
        (should_keep, line, [u])
      else
        (false, line, [u])
    else
      removeLoopOnLine rest line

/-- `CodeRefactor.remove_unused_imports`. -/
def remove_unused_imports (src : Str) (unused_imports : List Str) :
    RefactoringResult :=
  let lines := splitLines src
  let processed := lines.map (removeLoopOnLine unused_imports)
  let refactored_lines := processed.filterMap fun r => if r.1 then some r.2.1 else none
  let imports_removed := processed.flatMap fun r => r.2.2
  { success := true
    message := "Removed " ++ toString imports_removed.length ++ " unused import(s): " ++
      String.intercalate ", " (imports_removed.map fun u => String.mk u)
    original_code := src
    refactored_code := joinLines refactored_lines
    changes_made := imports_removed.map fun u => "Removed unused import: " ++ String.mk u }

mutual

/-- The `VariableFinder` visitor of `rename_variable`: collect the
`(lineno, col_offset)` of every `Name` node equal to the target whose
current enclosing scope matches the requested one (any scope when no scope
is requested).  Only `visit_FunctionDef` is overridden in the Python
original, so only a synchronous `FunctionDef` updates `current_scope`;
every other node (including `AsyncFunctionDef` and `ClassDef`) passes the
scope through unchanged.  Children are visited in field order
(`generic_visit`). -/
def varOccs (tn : String) (ts : Option String) (scope : Option String) :
    PyNode → List (Nat × Nat)
  | .Name id l c =>
      if id == tn && (ts.elim true fun t => scope == some t) then [(l, c)] else []
  | .FunctionDef name _ body _ _ => varOccsList tn ts (some name) body
  | .Module body => varOccsList tn ts scope body
  | .AsyncFunctionDef _ _ body _ _ => varOccsList tn ts scope body
  | .ClassDef _ body _ _ => varOccsList tn ts scope body
  | .Import _ _ _ => []
  | .ImportFrom _ _ _ _ => []
  | .Return value _ _ => varOccsList tn ts scope value
  | .Raise exc _ _ => varOccsList tn ts scope exc
  | .Break _ _ => []
  | .Continue _ _ => []
  | .If test body orelse _ _ =>
      varOccs tn ts scope test ++ varOccsList tn ts scope body ++
        varOccsList tn ts scope orelse
  | .For tgt iter body orelse _ _ =>
      varOccs tn ts scope tgt ++ varOccs tn ts scope iter ++
        varOccsList tn ts scope body ++ varOccsList tn ts scope orelse
  | .While test body orelse _ _ =>
      varOccs tn ts scope test ++ varOccsList tn ts scope body ++
        varOccsList tn ts scope orelse
  | .With items body _ _ =>
      varOccsList tn ts scope items ++ varOccsList tn ts scope body
  | .Try body handlers orelse finalbody _ _ =>
      varOccsList tn ts scope body ++ varOccsList tn ts scope handlers ++
        varOccsList tn ts scope orelse ++ varOccsList tn ts scope finalbody
  | .ExceptHandler body _ _ => varOccsList tn ts scope body
  | .ExprStmt value _ _ => varOccs tn ts scope value
  | .Assign targets value _ _ =>
      varOccsList tn ts scope targets ++ varOccs tn ts scope value
  | .AugAssign target value _ _ =>
      varOccs tn ts scope target ++ varOccs tn ts scope value
  | .Pass _ _ => []
  | .Attribute value _ _ _ => varOccs tn ts scope value
  | .Constant _ _ => []
  | .Call func args _ _ =>
      varOccs tn ts scope func ++ varOccsList tn ts scope args

/-- `varOccs` over a child list, in order. -/
def varOccsList (tn : String) (ts : Option String) (scope : Option String) :
    List PyNode → List (Nat × Nat)
  | [] => []
  | n :: rest => varOccs tn ts scope n ++ varOccsList tn ts scope rest

end

/-- Strict lexicographic order on `(lineno, col_offset)` pairs. -/
def pairLt (a b : Nat × Nat) : Bool :=
  a.1 < b.1 || (a.1 == b.1 && a.2 < b.2)

/-- Insert into a descending-sorted list (descending insertion sort =
Python's `sorted(occurrences, reverse=True)`; equal pairs keep their
order). -/
def insertDesc (x : Nat × Nat) : List (Nat × Nat) → List (Nat × Nat)
  | [] => [x]
  | y :: t => if pairLt y x then x :: y :: t else y :: insertDesc x t

/-- `sorted(·, reverse=True)` on position pairs. -/
def sortDesc (l : List (Nat × Nat)) : List (Nat × Nat) :=
  l.foldr insertDesc []

/-- The replacement loop of `rename_variable`: for each recorded position,
in descending order, replace the first whole-word occurrence of the old
name on that line (`re.sub(..., count=1)`); the recorded column offset is
not used.  (The Python original indexes `lines[line_num - 1]` on a tree
produced by parsing the same source, so the index is in range; the
embedding's `getD`/`set` are the in-range accesses.) -/
def applyRenames (old new : Str) (lines : List Str) (occs : List (Nat × Nat)) :
    List Str :=
  occs.foldl
    (fun ls occ =>
      let line_idx := occ.1 - 1
      let line := ls.getD line_idx []
      ls.set line_idx (subFirst (wordRE old) new none line))
    lines

/-- `CodeRefactor.rename_variable`.  The tree is the result of the external
`ast.parse` on the same source (`none` models a `SyntaxError`, whose
result message carries the exception detail that the embedding elides). -/
def rename_variable (parsed : Option PyNode) (src : Str)
    (old_name new_name : String) (scope : Option String) : RefactoringResult :=
  match parsed with
  | none =>
      { success := false, message := "Syntax error in source code",
        original_code := src, refactored_code := src, changes_made := [] }
  | some tree =>
    let occurrences := varOccs old_name scope none tree
    if occurrences.isEmpty then
      { success := false
        message := "Variable '" ++ old_name ++ "' not found in the specified scope"
        original_code := src, refactored_code := src, changes_made := [] }
    else
      let refactored :=
        applyRenames old_name.data new_name.data (splitLines src) (sortDesc occurrences)
      { success := true
        message := "Renamed '" ++ old_name ++ "' to '" ++ new_name ++ "' (" ++
          toString occurrences.length ++ " occurrences)"
        original_code := src
        refactored_code := joinLines refactored
        changes_made := ["Renamed variable: " ++ old_name ++ " -> " ++ new_name] }

/-- The insertion-point search of `extract_method`: the index of the first
line whose stripped content is nonempty and starts with neither `import`
nor `from`; 0 when no such line exists. -/
def findInsertPosAux (i : Nat) : List Str → Nat
  | [] => 0
  | l :: t =>
    let s := strip l
    if !s.isEmpty && !("import".data.isPrefixOf s) && !("from".data.isPrefixOf s) then i
    else findInsertPosAux (i + 1) t

/-- `CodeRefactor.extract_method`. -/
def extract_method (src : Str) (start_line end_line : Int)
    (method_name : String) : RefactoringResult :=
  let lines := splitLines src
  if start_line < 1 || end_line > (lines.length : Int) || start_line > end_line then
    { success := false, message := "Invalid line range",
      original_code := src, refactored_code := src, changes_made := [] }
  else
    let extracted_lines := (lines.drop (start_line - 1).toNat).take (end_line - start_line + 1).toNat
    let first := extracted_lines.headD []
    let base_indent := first.length - (lstrip first).length
    let method_lines : List Str :=
      ("def ".data ++ method_name.data ++ "():".data) ::
        extracted_lines.map fun line =>
          if !(strip line).isEmpty then "    ".data ++ line.drop base_indent else []
    let call_line := List.replicate base_indent ' ' ++ method_name.data ++ "()".data
    let refactored_lines :=
      lines.take (start_line - 1).toNat ++ [call_line] ++ lines.drop end_line.toNat
    let insert_pos := findInsertPosAux 0 refactored_lines
    let refactored_lines :=
      refactored_lines.take insert_pos ++ method_lines ++
        ([] : Str) :: ([] : Str) :: refactored_lines.drop insert_pos
    { success := true
      message := "Extracted method '" ++ method_name ++ "' from lines " ++
        toString start_line ++ "-" ++ toString end_line
      original_code := src
      refactored_code := joinLines refactored_lines
      changes_made := ["Extracted method: " ++ method_name] }

/-- `CodeRefactor.format_code`. -/
def format_code (src : Str) : RefactoringResult :=
  let lines := splitLines src
  let res := lines.foldl
    (fun (acc : List Str × List String × Nat) line =>
      let fl := acc.1
      let l := rstrip line
      let fl :=
        if acc.2.2 > 0 &&
            (("def ".data.isPrefixOf l) || ("class ".data.isPrefixOf l) ||
              ("async def ".data.isPrefixOf l)) then
          if !fl.isEmpty && !(strip (fl.getLastD [])).isEmpty then
            if !(fl.length > 1 && fl.getLastD [] == ([] : Str)) then fl ++ [[]] else fl
          else fl
        else fl
      (fl ++ [l],
        (if l == line then acc.2.1 else acc.2.1 ++ ["Formatted line " ++ toString (acc.2.2 + 1)]),
        acc.2.2 + 1))
    ([], [], 0)
  let changes := res.2.1
  let final_lines := (res.1.foldl
    (fun (acc : List Str × Bool) line =>
      let is_blank := (strip line).isEmpty
      if is_blank && acc.2 then acc else (acc.1 ++ [line], is_blank))
    ([], false)).1
  { success := true
    message := "Code formatted (" ++ toString changes.length ++ " changes)"
    original_code := src
    refactored_code := joinLines final_lines
    changes_made := if changes.isEmpty then ["Code formatting applied"] else changes }

/-- The keyword arguments of `apply_refactoring`: `none` models an absent
key (`kwargs.get` returning `None`). -/
structure RefactorKwargs where
  unused_imports : Option (List Str) := none
  old_name : Option String := none
  new_name : Option String := none
  scope : Option String := none
  start_line : Option Int := none
  end_line : Option Int := none
  method_name : Option String := none
deriving DecidableEq, Repr

/-- Python truthiness of an optional string: `None` and `""` are falsy. -/
def truthyStr : Option String → Bool
  | none => false
  | some s => !s.isEmpty

/-- Python truthiness of an optional integer: `None` and `0` are falsy. -/
def truthyInt : Option Int → Bool
  | none => false
  | some n => n != 0

/-- The `apply_refactoring` entry point of `refactor.py` (the returned
dictionary carries the same five fields as `RefactoringResult`).  The
parsed tree is threaded to `rename_variable`, the only operation that
parses. -/
def apply_refactoring (parsed : Option PyNode) (src : Str) (operation : String)
    (kwargs : RefactorKwargs) : RefactoringResult :=
  if operation == "remove_unused_imports" then
    remove_unused_imports src (kwargs.unused_imports.getD [])
  else if operation == "rename_variable" then
    if !truthyStr kwargs.old_name || !truthyStr kwargs.new_name then
      { success := false, message := "Missing required parameters: old_name and new_name",
        original_code := src, refactored_code := src, changes_made := [] }
    else
      rename_variable parsed src (kwargs.old_name.getD "") (kwargs.new_name.getD "")
        kwargs.scope
  else if operation == "extract_method" then
    if !(truthyInt kwargs.start_line && truthyInt kwargs.end_line &&
        truthyStr kwargs.method_name) then
      { success := false,
        message := "Missing required parameters: start_line, end_line, method_name",
        original_code := src, refactored_code := src, changes_made := [] }
    else
      extract_method src (kwargs.start_line.getD 0) (kwargs.end_line.getD 0)
        (kwargs.method_name.getD "")
  else if operation == "format_code" then
    format_code src
  else
    { success := false, message := "Unknown operation: " ++ operation,
      original_code := src, refactored_code := src, changes_made := [] }

/-!
## Derived views and specification-side definitions

Helpers that repackage the embedded checks in the vocabulary of the claims
(never changing their computations), the restricted program families over
which the universally quantified claims about raw text are stated, and the
concrete inputs used by scenarios and counterexamples.
-/

/-- The entries of the import-binding table that `_check_unused_imports`
reports: not `*`, and not in the used-name set. -/
def unusedImports (tree : PyNode) : List (String × PyNode) :=
  (collectImports tree).filter fun kv =>
    !(kv.1 == "*") && !(decide (kv.1 ∈ usedNames tree))

/-- The names the analyzer reports as `unused_import` for a tree. -/
def unusedImportNames (tree : PyNode) : List String :=
  (unusedImports tree).map (·.1)

/-- Is this node a callable definition (`FunctionDef`/`AsyncFunctionDef`)? -/
def isCallable : PyNode → Bool
  | .FunctionDef _ _ _ _ _ => true
  | .AsyncFunctionDef _ _ _ _ _ => true
  | _ => false

/-- The name of a callable node (`""` for other nodes). -/
def callableName : PyNode → String
  | .FunctionDef name _ _ _ _ => name
  | .AsyncFunctionDef name _ _ _ _ => name
  | _ => ""

/-- The `arguments` record of a callable node (empty for other nodes). -/
def callableArgs : PyNode → PyArguments
  | .FunctionDef _ args _ _ _ => args
  | .AsyncFunctionDef _ args _ _ _ => args
  | _ => ⟨[], [], none, [], none⟩

/-- The parameter count as the claim states it: positional plus
positional-only plus keyword-only parameters (variadic parameters are not
counted), minus one exactly when the callable lies beneath a class
definition in the tree (`_is_method`) and its first positional parameter is
literally `self` or `cls`. -/
def claimParamCount (tree n : PyNode) : Nat :=
  let args := callableArgs n
  let discount :=
    if is_method tree n &&
        (args.args.head?.elim false fun a => a.arg == "self" || a.arg == "cls") then
      1
    else 0
  (args.args.length - discount) + args.posonlyargs.length + args.kwonlyargs.length

/-- The `too_many_parameters` issue for a callable node, in terms of
`claimParamCount`. -/
def claimParamIssue (tree : PyNode) (max_params : Nat) (n : PyNode) : CodeIssue :=
  ⟨nodeLineno n, nodeCol n, "too_many_parameters",
    "Function '" ++ callableName n ++ "' has " ++ toString (claimParamCount tree n) ++
      " parameters (max: " ++ toString max_params ++ ")", "warning"⟩

/-- The `deep_nesting` issue for a callable node, in terms of
`calculate_depth` started at depth 0. -/
def claimDepthIssue (max_depth : Nat) (n : PyNode) : CodeIssue :=
  ⟨nodeLineno n, nodeCol n, "deep_nesting",
    "Function '" ++ callableName n ++ "' has deep nesting (depth: " ++
      toString (calculate_depth n 0) ++ ", max: " ++ toString max_depth ++ ")", "warning"⟩

/-- The `duplicate_code` issue for a block-hash table entry: positioned at
the recorded first occurrence, stating `first_end - first_start` and the
occurrence count. -/
def claimDupIssue (kv : Str × List (Nat × Nat)) : CodeIssue :=
  ⟨(kv.2.head?.getD (0, 0)).1, 0, "duplicate_code",
    "Duplicate code block found (" ++
      toString ((kv.2.head?.getD (0, 0)).2 - (kv.2.head?.getD (0, 0)).1) ++
      " lines, " ++ toString kv.2.length ++ " occurrences)", "info"⟩

/-- Is the string a nonempty identifier-like token (word characters only)?
The name families below are restricted to such tokens. -/
def isIdentS (s : String) : Bool :=
  !s.data.isEmpty && s.data.all isWordChar

/-- Join pieces with a separator (the rendering of comma lists). -/
def joinSep (sep : List Char) : List (List Char) → List Char
  | [] => []
  | [x] => x
  | x :: y :: t => x ++ sep ++ joinSep sep (y :: t)

/-!
### A restricted program family for the unused-import round trip (C2)

`SrcLine` programs consist of single-name unaliased `import NAME` lines and
expression lines `print(a,b,c)` referencing names.  `progSrc` renders the
text the refactorer sees and `progTree` the tree the external parser would
hand the analyzer for that text (positions inside expression lines are not
read by any function involved).
-/

/-- One line of the restricted program family. -/
inductive SrcLine where
  | imp (name : String)
  | use (names : List String)

/-- Well-formedness of a line: all names are identifier tokens. -/
def wfLineB : SrcLine → Bool
  | .imp n => isIdentS n
  | .use ns => ns.all isIdentS

/-- Well-formedness of a program. -/
def wfProgB (prog : List SrcLine) : Bool := prog.all wfLineB

/-- The rendered text of one line. -/
def renderLine : SrcLine → Str
  | .imp n => "import ".data ++ n.data
  | .use ns => "print(".data ++ joinSep ",".data (ns.map (·.data)) ++ ")".data

/-- The rendered source text of a program. -/
def progSrc (prog : List SrcLine) : Str := joinLines (prog.map renderLine)

/-- The parse of one rendered line, at the given line number. -/
def lineNode : SrcLine → Nat → PyNode
  | .imp n, i => .Import [⟨n, none⟩] i 0
  | .use ns, i =>
      .ExprStmt (.Call (.Name "print" i 0) (ns.map fun x => .Name x i 6) i 0) i 0

/-- The parses of the lines of a program, numbering from `i`. -/
def progNodes (i : Nat) : List SrcLine → List PyNode
  | [] => []
  | l :: rest => lineNode l i :: progNodes (i + 1) rest

/-- The parse of a rendered program. -/
def progTree (prog : List SrcLine) : PyNode := .Module (progNodes 1 prog)

/-- The used-name contribution of a single node (the names `usedStep` adds
to the used set). -/
def nameContrib : PyNode → List String
  | .Name id _ _ => [id]
  | .Attribute (.Name id _ _) _ _ _ => [id]
  | _ => []

/-- The bound names a single node contributes to the import-binding table. -/
def bindContrib : PyNode → List String
  | .Import names _ _ => names.map aliasBound
  | .ImportFrom _ names _ _ => names.map aliasBound
  | _ => []

/-- Every name referenced by a program of the restricted family (the `print`
callee plus the referenced names of each expression line). -/
def progUses (prog : List SrcLine) : List String :=
  prog.flatMap fun l =>
    match l with
    | .imp _ => []
    | .use ns => "print" :: ns

/-- Every name bound by an import line of a program of the restricted
family. -/
def progBinds (prog : List SrcLine) : List String :=
  prog.flatMap fun l =>
    match l with
    | .imp n => [n]
    | .use _ => []

/-- Does a line survive `remove_unused_imports` with the given names? -/
def progKeep (uNames : List String) : SrcLine → Bool
  | .imp n => !(uNames.contains n)
  | .use _ => true

/-- The program left after removing the import lines of the given names. -/
def progAfter (prog : List SrcLine) (uNames : List String) : List SrcLine :=
  prog.filter (progKeep uNames)

/-!
### The from-import line family (C7)
-/

/-- A rendered `from MODULE import a, b, c` line (names separated by
`", "`). -/
def renderFromLine (M : String) (names : List String) : Str :=
  "from ".data ++ M.data ++ " import ".data ++
    joinSep ", ".data (names.map (·.data))

/-- A requested name is *clean* for a from-import line when it is an
identifier occurring exactly once in the name list and its text occurs
neither inside the `from MODULE import` prefix nor inside any other listed
name, so the comma-pattern substitution touches exactly the one listed
occurrence. -/
def cleanFromReq (M : String) (names : List String) (u : String) : Bool :=
  isIdentS u && isIdentS M && names.all isIdentS &&
    (names.count u == 1) &&
    !(containsSub u.data ("from ".data ++ M.data ++ " import".data)) &&
    (names.all fun w => w == u || !(containsSub u.data w.data))

/-- The line text left after the comma-pattern substitution removes the
listed name between `pre` and `post` (as `re.sub` actually rewrites it):
removing the first name keeps a well-formed list; removing a later name
also consumes both adjacent commas, leaving `pre` and `post` separated by a
bare space. -/
def fromLineAfterRemove (M : String) (pre post : List String) : Str :=
  if pre.isEmpty then
    "from ".data ++ M.data ++ " import ".data ++
      joinSep ", ".data (post.map (·.data))
  else
    "from ".data ++ M.data ++ " import ".data ++
      joinSep ", ".data (pre.map (·.data)) ++
      (if post.isEmpty then [] else " ".data ++ joinSep ", ".data (post.map (·.data)))

/-!
### Concrete inputs for scenarios, counterexamples and witnesses
-/

/-- Empty `arguments`. -/
def noArgs : PyArguments := ⟨[], [], none, [], none⟩

/-- `def f(a,b,c,d,e,f): pass` (the C3 scenario). -/
def sixParamTree : PyNode :=
  .Module [.FunctionDef "f"
    ⟨[], [⟨"a"⟩, ⟨"b"⟩, ⟨"c"⟩, ⟨"d"⟩, ⟨"e"⟩, ⟨"f"⟩], none, [], none⟩
    [.Pass 1 28] 1 0]

/-- The `finally` suite of `finallyTree`: a `return` followed by a call —
dead code the claim says is reported. -/
def finallyBody : List PyNode :=
  [.Return [.Constant 5 15] 5 8,
   .ExprStmt (.Call (.Name "print" 6 8) [.Constant 6 14] 6 8) 6 8]

/-- `def f():` containing `try: pass finally: return 1; print('x')` —
unreachable code inside a `finally` suite (the C1 failing input). -/
def finallyTree : PyNode :=
  .Module [.FunctionDef "f" noArgs
    [.Try [.Pass 3 8] [] [] finallyBody 2 4] 1 0]

/-- Four nested `if`s inside a function (the C9 scenario). -/
def nestedIfTree : PyNode :=
  .Module [.FunctionDef "deeply_nested" noArgs
    [.If (.Constant 2 7)
      [.If (.Constant 3 11)
        [.If (.Constant 4 15)
          [.If (.Constant 5 19) [.Return [.Constant 6 27] 6 20] [] 5 16]
          [] 4 12]
        [] 3 8]
      [] 2 4] 1 0]

/-- An outer function whose only deep nesting sits inside an inner function:
the depth search does not stop at the inner callable boundary, so the outer
callable is reported too (C9). -/
def innerDefTree : PyNode :=
  .Module [.FunctionDef "outer" noArgs
    [.FunctionDef "inner" noArgs
      [.If (.Constant 3 11)
        [.If (.Constant 4 15)
          [.If (.Constant 5 19)
            [.If (.Constant 6 23) [.Pass 7 24] [] 6 20]
            [] 5 16]
          [] 4 12]
        [] 3 8] 2 4] 1 0]

/-- The parse of `tmp = 0\ntmp += 1\nreturn tmp` as handed over by the
external syntax adapter (the C5 scenario text). -/
def renameTree : PyNode :=
  .Module [.Assign [.Name "tmp" 1 0] (.Constant 1 6) 1 0,
    .AugAssign (.Name "tmp" 2 0) (.Constant 2 7) 2 0,
    .Return [.Name "tmp" 3 7] 3 0]

/-- The parse of `tmp2 = tmp` (word-boundary safety input for C5). -/
def tmp2Tree : PyNode :=
  .Module [.Assign [.Name "tmp2" 1 0] (.Name "tmp" 1 7) 1 0]

/-- Ten lines forming two identical five-line halves: the recorded first
occurrence of the repeated digest is the window `(1, 5)`, a block of five
raw lines (the C6 counterexample input). -/
def dupSrc : Str :=
  ("a1 = 1\na2 = 2\na3 = 3\na4 = 4\na5 = 5\na1 = 1\na2 = 2\na3 = 3\na4 = 4\na5 = 5").data

/-- The normalised text of the duplicated five-line block of `dupSrc`. -/
def dupBlock : Str := ("a1 = 1\na2 = 2\na3 = 3\na4 = 4\na5 = 5").data

/-- `import os, sys` followed by `print(sys.version)` (the C2 counterexample
text: `os` is reported unused, but the comma-separated import line matches
neither removal pattern). -/
def multiImportSrc : Str := ("import os, sys\nprint(sys.version)").data

/-- The parse of `multiImportSrc`. -/
def multiImportTree : PyNode :=
  .Module [.Import [⟨"os", none⟩, ⟨"sys", none⟩] 1 0,
    .ExprStmt (.Call (.Name "print" 2 0)
      [.Attribute (.Name "sys" 2 6) "version" 2 6] 2 0) 2 0]

/-- Does the requested name `u` hit `line` under either of the two removal
patterns tried by the loop of `remove_unused_imports` (the whole-line plain
`import u` match, or the `from … import … u`-with-word-boundaries search)? -/
def lineMatches (u line : Str) : Bool :=
  reMatchB (importLineRE u) line || reSearchB (fromImportRE u) line

/-- The first requested name whose pattern matches the line — the only one
the loop can act on, since it breaks after a match. -/
def firstMatching (us : List Str) (line : Str) : Option Str :=
  us.find? fun u => lineMatches u line

/-!
## Theorems

General lemmas about the embedding first, then one theorem per claim
(with witnesses and counterexamples where required).
-/

theorem walkList_eq_flatMap (l : List PyNode) : walkList l = l.flatMap walk := by
  induction l with
  | nil => rfl
  | cons x xs ih => simp [walkList, ih]

/-- The walk of a node is itself followed by the concatenated walks of its
children, in child order. -/
theorem walk_eq_children (n : PyNode) :
    walk n = n :: (children n).flatMap walk := by
  cases n <;> simp [walk, children, walkList_eq_flatMap]

theorem self_mem_walk (n : PyNode) : n ∈ walk n := by
  rw [walk_eq_children]; exact List.mem_cons_self _ _

theorem mem_walk_of_mem_children {c n : PyNode} (hc : c ∈ n.children)
    {m : PyNode} (hm : m ∈ walk c) : m ∈ walk n := by
  rw [walk_eq_children]
  refine List.mem_cons_of_mem _ ?_
  rw [List.mem_flatMap]
  exact ⟨c, hc, hm⟩

/-- C8: `extract_method(start_line, end_line, name)` fails — with the
`Invalid line range` message and the original text returned verbatim — if
and only if `start_line < 1`, `end_line` exceeds the number of lines, or
`start_line > end_line`; on every valid range it succeeds. -/
theorem C8_extract_method_range (src : Str) (start_line end_line : Int)
    (name : String) :
    ((extract_method src start_line end_line name).success = false ↔
      start_line < 1 ∨ end_line > ((splitLines src).length : Int) ∨
        start_line > end_line) ∧
    ((start_line < 1 ∨ end_line > ((splitLines src).length : Int) ∨
        start_line > end_line) →
      extract_method src start_line end_line name =
        ⟨false, "Invalid line range", src, src, []⟩) := by
  unfold extract_method
  constructor
  · by_cases h : start_line < 1 ∨ end_line > ((splitLines src).length : Int) ∨
        start_line > end_line
    · rw [if_pos (by rcases h with h | h | h <;> simp [h])]
      simpa using h
    · rw [if_neg (by
        simp only [Bool.or_eq_true, decide_eq_true_eq]
        push_neg at h ⊢
        exact ⟨⟨h.1, h.2.1⟩, h.2.2⟩)]
      exact ⟨fun hf => absurd hf (by simp), fun hd => absurd hd h⟩
  · intro h
    rw [if_pos (by rcases h with h | h | h <;> simp [h])]

/-- C8 witness: the out-of-range call `extract_method(0, 1, "m")` on a
two-line text fails with the original text returned. -/
theorem C8_extract_method_range_witness :
    (0 : Int) < 1 ∧
      extract_method ("a\nb").data 0 1 "m" =
        ⟨false, "Invalid line range", ("a\nb").data, ("a\nb").data, []⟩ :=
  ⟨by decide,
    (C8_extract_method_range ("a\nb").data 0 1 "m").2 (Or.inl (by decide))⟩

theorem remove_unused_imports_success (src : Str) (us : List Str) :
    (remove_unused_imports src us).success = true := rfl

theorem format_code_success (src : Str) :
    (format_code src).success = true := rfl

theorem rename_variable_failure (parsed : Option PyNode) (src : Str)
    (o n : String) (sc : Option String) :
    (rename_variable parsed src o n sc).success = false →
    (rename_variable parsed src o n sc).refactored_code = src := by
  unfold rename_variable
  cases parsed with
  | none => intro _; rfl
  | some tree =>
    by_cases ho : (varOccs o sc none tree).isEmpty
    · simp [ho]
    · simp [ho]

theorem extract_method_failure (src : Str) (s e : Int) (n : String) :
    (extract_method src s e n).success = false →
    extract_method src s e n = ⟨false, "Invalid line range", src, src, []⟩ := by
  unfold extract_method
  by_cases h : (decide (s < 1) || decide (e > ((splitLines src).length : Int)) ||
      decide (s > e)) = true
  · rw [if_pos h]
    intro _; rfl
  · rw [if_neg h]
    intro hf; exact absurd hf (by simp)

/-- C10: at the `apply_refactoring` entry point, `extract_method` with
`start_line = 0` or `end_line = 0` yields the missing-required-parameters
message (the `all([...])` presence check treats the integer 0 as absent),
not the invalid-range message; the `Invalid line range` branch is reachable
only when both line arguments are present and nonzero. -/
theorem C10_extract_zero_is_missing_params (parsed : Option PyNode) (src : Str)
    (kwargs : RefactorKwargs) :
    ((kwargs.start_line = some 0 ∨ kwargs.end_line = some 0) →
      apply_refactoring parsed src "extract_method" kwargs =
        ⟨false, "Missing required parameters: start_line, end_line, method_name",
          src, src, []⟩) ∧
    ((apply_refactoring parsed src "extract_method" kwargs).message =
        "Invalid line range" →
      ∃ s e : Int, kwargs.start_line = some s ∧ s ≠ 0 ∧
        kwargs.end_line = some e ∧ e ≠ 0) := by
  constructor
  · intro h
    unfold apply_refactoring
    rw [if_neg (by decide), if_neg (by decide), if_pos (by decide),
      if_pos (by
        rcases h with h | h <;> simp [h, truthyInt])]
  · intro h
    unfold apply_refactoring at h
    rw [if_neg (by decide), if_neg (by decide), if_pos (by decide)] at h
    cases hX : (truthyInt kwargs.start_line && truthyInt kwargs.end_line &&
        truthyStr kwargs.method_name) with
    | false =>
      rw [if_pos (by simp [hX])] at h
      exact absurd h (by simp)
    | true =>
      rw [if_neg (by simp [hX])] at h
      simp only [Bool.and_eq_true] at hX
      obtain ⟨⟨hs, he⟩, _⟩ := hX
      cases hs' : kwargs.start_line with
      | none => rw [hs'] at hs; exact absurd hs (by simp [truthyInt])
      | some s =>
        cases he' : kwargs.end_line with
        | none => rw [he'] at he; exact absurd he (by simp [truthyInt])
        | some e =>
          refine ⟨s, e, rfl, ?_, rfl, ?_⟩
          · rw [hs'] at hs; simpa [truthyInt] using hs
          · rw [he'] at he; simpa [truthyInt] using he

/-- C10 witness: with `start_line = 0` the entry point reports missing
parameters (and hence not the invalid-range message). -/
theorem C10_extract_zero_is_missing_params_witness :
    ((some (0 : Int) = some 0 ∨ (some (2 : Int) = some 0)) ∧
      apply_refactoring none ("a\nb").data "extract_method"
          { start_line := some 0, end_line := some 2, method_name := some "m" } =
        ⟨false, "Missing required parameters: start_line, end_line, method_name",
          ("a\nb").data, ("a\nb").data, []⟩) :=
  ⟨Or.inl rfl,
    (C10_extract_zero_is_missing_params none ("a\nb").data
      { start_line := some 0, end_line := some 2, method_name := some "m" }).1
      (Or.inl rfl)⟩

/-- C4: `apply_refactoring` never returns partially mutated text — every
`success = false` result carries the original source verbatim; an unknown
operation name and missing required parameters for `rename_variable` or
`extract_method` each produce such a failure result rather than a raised
fault (the embedding is a total function). -/
theorem C4_apply_failure_returns_original (parsed : Option PyNode) (src : Str)
    (op : String) (kwargs : RefactorKwargs) :
    ((apply_refactoring parsed src op kwargs).success = false →
      (apply_refactoring parsed src op kwargs).refactored_code = src) ∧
    (op ≠ "remove_unused_imports" → op ≠ "rename_variable" →
      op ≠ "extract_method" → op ≠ "format_code" →
      apply_refactoring parsed src op kwargs =
        ⟨false, "Unknown operation: " ++ op, src, src, []⟩) ∧
    (¬(truthyStr kwargs.old_name = true ∧ truthyStr kwargs.new_name = true) →
      apply_refactoring parsed src "rename_variable" kwargs =
        ⟨false, "Missing required parameters: old_name and new_name",
          src, src, []⟩) ∧
    (¬(truthyInt kwargs.start_line = true ∧ truthyInt kwargs.end_line = true ∧
        truthyStr kwargs.method_name = true) →
      apply_refactoring parsed src "extract_method" kwargs =
        ⟨false, "Missing required parameters: start_line, end_line, method_name",
          src, src, []⟩) := by
  refine ⟨?_, ?_, ?_, ?_⟩
  · intro hf
    unfold apply_refactoring at hf ⊢
    by_cases h1 : (op == "remove_unused_imports") = true
    · rw [if_pos h1] at hf
      simp [remove_unused_imports_success] at hf
    · rw [if_neg h1] at hf ⊢
      by_cases h2 : (op == "rename_variable") = true
      · rw [if_pos h2] at hf ⊢
        by_cases hm : (!truthyStr kwargs.old_name || !truthyStr kwargs.new_name) = true
        · rw [if_pos hm]
        · rw [if_neg hm] at hf ⊢
          exact rename_variable_failure _ _ _ _ _ hf
      · rw [if_neg h2] at hf ⊢
        by_cases h3 : (op == "extract_method") = true
        · rw [if_pos h3] at hf ⊢
          by_cases hm : (!(truthyInt kwargs.start_line && truthyInt kwargs.end_line &&
              truthyStr kwargs.method_name)) = true
          · rw [if_pos hm]
          · rw [if_neg hm] at hf ⊢
            rw [extract_method_failure _ _ _ _ hf]
        · rw [if_neg h3] at hf ⊢
          by_cases h4 : (op == "format_code") = true
          · rw [if_pos h4] at hf
            simp [format_code_success] at hf
          · rw [if_neg h4]
  · intro h1 h2 h3 h4
    unfold apply_refactoring
    rw [if_neg (by simpa using h1), if_neg (by simpa using h2),
      if_neg (by simpa using h3), if_neg (by simpa using h4)]
  · intro hm
    unfold apply_refactoring
    have hcond : (!truthyStr kwargs.old_name || !truthyStr kwargs.new_name) = true := by
      cases ho : truthyStr kwargs.old_name with
      | false => simp
      | true =>
        cases hn : truthyStr kwargs.new_name with
        | false => simp
        | true => exact absurd ⟨ho, hn⟩ hm
    rw [if_neg (by decide), if_pos (by decide), if_pos hcond]
  · intro hm
    unfold apply_refactoring
    have hcond : (!(truthyInt kwargs.start_line && truthyInt kwargs.end_line &&
        truthyStr kwargs.method_name)) = true := by
      cases hs : truthyInt kwargs.start_line with
      | false => simp [hs]
      | true =>
        cases he : truthyInt kwargs.end_line with
        | false => simp [hs, he]
        | true =>
          cases hn : truthyStr kwargs.method_name with
          | false => simp [hs, he, hn]
          | true => exact absurd ⟨hs, he, hn⟩ hm
    rw [if_neg (by decide), if_neg (by decide), if_pos (by decide), if_pos hcond]

/-- C4 witness: an unknown operation fails with the original text, and a
`rename_variable` call missing `new_name` fails likewise. -/
theorem C4_apply_failure_returns_original_witness :
    ("bogus" : String) ≠ "remove_unused_imports" ∧
      apply_refactoring none ("x = 1").data "bogus" {} =
        ⟨false, "Unknown operation: " ++ "bogus", ("x = 1").data, ("x = 1").data, []⟩ ∧
      apply_refactoring none ("x = 1").data "rename_variable" { old_name := some "x" } =
        ⟨false, "Missing required parameters: old_name and new_name",
          ("x = 1").data, ("x = 1").data, []⟩ :=
  ⟨by decide,
    (C4_apply_failure_returns_original none ("x = 1").data "bogus" {}).2.1
      (by decide) (by decide) (by decide) (by decide),
    (C4_apply_failure_returns_original none ("x = 1").data "rename_variable"
        { old_name := some "x" }).2.2.1
      (by intro hc; exact absurd hc.2 (by decide))⟩

/-- C1 (code bug): unreachable code inside a `finally` suite is never
reported.  The block scanner itself would flag the suite (first conjunct),
but the dead-code walk never reaches it: `Try` is not in the scanned
`isinstance` tuple and the `finalbody` probe is attached to node kinds that
have no `finally` clause, contradicting both the spec and the check's own
`finally`-handling comment. -/
theorem C1_dead_code_finally_missed :
    check_unreachable_code finallyBody =
      [⟨6, 8, "dead_code", "Unreachable code after return/raise statement",
        "warning"⟩] ∧
    check_dead_code finallyTree = [] :=
  ⟨rfl, rfl⟩

theorem filterMap_eq_filter_map {α β : Type} (f : α → Option β) (p : α → Bool)
    (g : α → β) (h : ∀ x, f x = if p x then some (g x) else none) (l : List α) :
    l.filterMap f = (l.filter p).map g := by
  induction l with
  | nil => rfl
  | cons x xs ih =>
    rw [List.filterMap_cons, List.filter_cons, h x]
    by_cases hp : p x = true
    · rw [if_pos hp, if_pos hp, List.map_cons, ih]
    · rw [if_neg hp, if_neg hp, ih]

theorem codeParamCount_eq (tree n : PyNode) :
    (if is_method tree n && decide (0 < (callableArgs n).args.length) &&
        ((callableArgs n).args.head?.elim false fun a =>
          a.arg == "self" || a.arg == "cls") then
      (callableArgs n).args.length - 1
    else (callableArgs n).args.length) +
      (callableArgs n).posonlyargs.length + (callableArgs n).kwonlyargs.length =
    claimParamCount tree n := by
  unfold claimParamCount
  cases harg : (callableArgs n).args with
  | nil => simp [harg]
  | cons a rest =>
    simp only [harg, List.head?_cons, Option.elim, List.length_cons]
    cases him : is_method tree n <;>
      cases hsc : (a.arg == "self" || a.arg == "cls") <;> simp

/-- C3: for every tree, the parameter-count check emits exactly one
`too_many_parameters` warning per callable whose count — positional plus
positional-only plus keyword-only parameters, variadic parameters never
counted, minus one exactly when the callable sits beneath a class
definition anywhere in the tree and its first positional parameter is
literally `self` or `cls` — exceeds the maximum, stating that count; and
`def f(a,b,c,d,e,f): pass` yields one issue with count 6 and max 5. -/
theorem C3_too_many_parameters (tree : PyNode) (max_params : Nat) :
    check_too_many_parameters tree max_params =
      ((walk tree).filter fun n =>
        isCallable n && decide (claimParamCount tree n > max_params)).map
        (claimParamIssue tree max_params) ∧
    check_too_many_parameters sixParamTree 5 =
      [⟨1, 0, "too_many_parameters", "Function 'f' has 6 parameters (max: 5)",
        "warning"⟩] := by
  constructor
  · unfold check_too_many_parameters
    apply filterMap_eq_filter_map
    intro n
    cases n <;> try rfl
    case FunctionDef name args body lineno col =>
      have hc := codeParamCount_eq tree (.FunctionDef name args body lineno col)
      simp only [callableArgs] at hc
      simp only [paramIssueFor, claimParamIssue, callableName, callableArgs,
        nodeLineno, nodeCol, isCallable, Bool.true_and, hc, decide_eq_true_eq]
    case AsyncFunctionDef name args body lineno col =>
      have hc := codeParamCount_eq tree (.AsyncFunctionDef name args body lineno col)
      simp only [callableArgs] at hc
      simp only [paramIssueFor, claimParamIssue, callableName, callableArgs,
        nodeLineno, nodeCol, isCallable, Bool.true_and, hc, decide_eq_true_eq]
  · rfl

/-- C9: for every tree, the deep-nesting check emits exactly one
`deep_nesting` warning per callable whose maximum recursive depth — one
added on entering a conditional, loop, `with`, or `try` construct, nothing
added at inner callable or class boundaries — exceeds the maximum, stating
that depth; four nested `if`s give one issue with depth 4, and nesting
buried inside an inner function is also charged to the outer function. -/
theorem C9_deep_nesting (tree : PyNode) (max_depth : Nat) :
    check_deep_nesting tree max_depth =
      ((walk tree).filter fun n =>
        isCallable n && decide (calculate_depth n 0 > max_depth)).map
        (claimDepthIssue max_depth) ∧
    check_deep_nesting nestedIfTree 3 =
      [⟨1, 0, "deep_nesting",
        "Function 'deeply_nested' has deep nesting (depth: 4, max: 3)",
        "warning"⟩] ∧
    check_deep_nesting innerDefTree 3 =
      [⟨1, 0, "deep_nesting", "Function 'outer' has deep nesting (depth: 4, max: 3)",
        "warning"⟩,
       ⟨2, 4, "deep_nesting", "Function 'inner' has deep nesting (depth: 4, max: 3)",
        "warning"⟩] := by
  refine ⟨?_, rfl, rfl⟩
  unfold check_deep_nesting
  apply filterMap_eq_filter_map
  intro n
  cases n <;> try rfl
  case FunctionDef name args body lineno col =>
    simp only [claimDepthIssue, callableName, nodeLineno, nodeCol, isCallable,
      Bool.true_and, decide_eq_true_eq]
  case AsyncFunctionDef name args body lineno col =>
    simp only [claimDepthIssue, callableName, nodeLineno, nodeCol, isCallable,
      Bool.true_and, decide_eq_true_eq]

/-- C5: `rename_variable` fails with the "not found" message and the
original text exactly when the parsed tree has no matching bare-identifier
occurrence in the requested scope; otherwise it succeeds, and on
`tmp = 0\ntmp += 1\nreturn tmp` renaming `tmp` to `total` rewrites all
three positions, leaves no whole-word `tmp` behind, and does not touch the
inside of identifiers such as `tmp2`. -/
theorem C5_rename_variable (parsed : Option PyNode) (src : Str)
    (old new : String) (scope : Option String) (tree : PyNode)
    (hp : parsed = some tree) :
    (((rename_variable parsed src old new scope).success = false ∧
        (rename_variable parsed src old new scope).refactored_code = src ∧
        (rename_variable parsed src old new scope).message =
          "Variable '" ++ old ++ "' not found in the specified scope") ↔
      varOccs old scope none tree = []) ∧
    rename_variable (some renameTree) ("tmp = 0\ntmp += 1\nreturn tmp").data
        "tmp" "total" none =
      ⟨true, "Renamed 'tmp' to 'total' (3 occurrences)",
        ("tmp = 0\ntmp += 1\nreturn tmp").data,
        ("total = 0\ntotal += 1\nreturn total").data,
        ["Renamed variable: tmp -> total"]⟩ ∧
    reSearchB (wordRE ("tmp").data)
      (rename_variable (some renameTree) ("tmp = 0\ntmp += 1\nreturn tmp").data
        "tmp" "total" none).refactored_code = false ∧
    (rename_variable (some tmp2Tree) ("tmp2 = tmp").data
        "tmp" "total" none).refactored_code = ("tmp2 = total").data := by
  subst hp
  refine ⟨?_, by decide, by decide, by decide⟩
  cases hocc : varOccs old scope none tree with
  | nil => simp [rename_variable, hocc]
  | cons a t => simp [rename_variable, hocc]

/-- C5 witness: on `tmp2 = tmp` the name `nope` has no occurrence, so the
rename fails with the "not found" message and the unchanged text. -/
theorem C5_rename_variable_witness :
    (some tmp2Tree = some tmp2Tree) ∧
      (rename_variable (some tmp2Tree) ("tmp2 = tmp").data "nope" "x" none).success
          = false ∧
      (rename_variable (some tmp2Tree) ("tmp2 = tmp").data "nope" "x" none).refactored_code
          = ("tmp2 = tmp").data ∧
      (rename_variable (some tmp2Tree) ("tmp2 = tmp").data "nope" "x" none).message
          = "Variable '" ++ "nope" ++ "' not found in the specified scope" :=
  ⟨rfl,
    ((C5_rename_variable (some tmp2Tree) ("tmp2 = tmp").data "nope" "x" none
      tmp2Tree rfl).1).mpr (by decide)⟩

theorem addOcc_keys (tbl : List (Str × List (Nat × Nat))) (k : Str) (v : Nat × Nat) :
    (addOcc tbl k v).map Prod.fst =
      if k ∈ tbl.map Prod.fst then tbl.map Prod.fst else tbl.map Prod.fst ++ [k] := by
  induction tbl with
  | nil => simp [addOcc]
  | cons kv t ih =>
    obtain ⟨k', vs⟩ := kv
    by_cases hk : k' = k
    · simp [addOcc, hk]
    · have hk' : ¬(k = k') := fun h => hk h.symm
      by_cases hmem : k ∈ t.map Prod.fst <;>
        simp [addOcc, hk, hk', hmem, ih]

theorem addOcc_nodup (tbl : List (Str × List (Nat × Nat))) (k : Str)
    (v : Nat × Nat) (h : (tbl.map Prod.fst).Nodup) :
    ((addOcc tbl k v).map Prod.fst).Nodup := by
  rw [addOcc_keys]
  by_cases hmem : k ∈ tbl.map Prod.fst
  · simpa [hmem] using h
  · simp only [if_neg hmem, List.nodup_append, List.nodup_cons]
    simp [h, hmem, List.nodup_append]

theorem foldl_preserve {α β : Type} (P : α → Prop) (f : α → β → α)
    (h : ∀ a b, P a → P (f a b)) :
    ∀ (l : List β) (a : α), P a → P (l.foldl f a) := by
  intro l
  induction l with
  | nil => intro a ha; exact ha
  | cons x xs ih => intro a ha; exact ih _ (h a x ha)

/-- The digests are the keys of a single table, so they are pairwise
distinct. -/
theorem blockHashes_nodup_keys (sl : List Str) (min_lines : Nat) :
    ((blockHashes sl min_lines).map Prod.fst).Nodup := by
  unfold blockHashes
  refine foldl_preserve
    (fun (tbl : List (Str × List (Nat × Nat))) => (tbl.map Prod.fst).Nodup)
    _ ?_ _ _ List.nodup_nil
  intro tbl start h
  refine foldl_preserve
    (fun (tbl : List (Str × List (Nat × Nat))) => (tbl.map Prod.fst).Nodup)
    _ ?_ _ _ h
  intro tbl endl h
  dsimp only
  split_ifs with hc
  · exact addOcc_nodup _ _ _ h
  · exact h

/-- With pairwise-distinct keys, the `reported_blocks` set of the reporting
loop never fires: the loop emits, in table order, exactly one issue per
entry with more than one occurrence. -/
theorem report_duplicates_eq_aux (tbl : List (Str × List (Nat × Nat)))
    (acc : List CodeIssue × List Str)
    (hd : ∀ k ∈ tbl.map Prod.fst, k ∉ acc.2)
    (hnd : (tbl.map Prod.fst).Nodup) :
    (tbl.foldl reportStep acc).1 =
      acc.1 ++ tbl.filterMap fun kv =>
        if kv.2.length > 1 then some (claimDupIssue kv) else none := by
  induction tbl generalizing acc with
  | nil => simp
  | cons kv t ih =>
    obtain ⟨k, vs⟩ := kv
    simp only [List.map_cons, List.nodup_cons] at hnd
    obtain ⟨hknotin, hndt⟩ := hnd
    have hknot : k ∉ acc.2 := hd k (by simp)
    have hcont : acc.2.contains k = false := by
      rw [← Bool.not_eq_true]
      intro hc
      exact hknot (List.elem_iff.mp hc)
    simp only [List.foldl_cons, List.filterMap_cons]
    by_cases hlen : vs.length > 1
    · rw [show reportStep acc (k, vs) =
          (acc.1 ++ [claimDupIssue (k, vs)], acc.2 ++ [k]) from by
        unfold reportStep
        rw [if_pos (by simp [hlen, hcont, hknot])]
        rfl]
      rw [ih]
      · simp [hlen]
      · intro k' hk'
        simp only [List.mem_append, List.mem_singleton]
        rintro (hin | hke)
        · exact hd k' (List.mem_cons_of_mem _ hk') hin
        · exact hknotin (hke ▸ hk')
      · exact hndt
    · rw [show reportStep acc (k, vs) = acc from by
        unfold reportStep
        rw [if_neg (by simp [hlen])]]
      rw [if_neg hlen]
      apply ih
      · intro k' hk'
        exact hd k' (List.mem_cons_of_mem _ hk')
      · exact hndt

/-- C6 counterexample: on ten lines made of two identical five-line halves,
the duplicate detector emits exactly one issue whose recorded first
occurrence is the window `(1, 5)` — a block of five raw (and five content)
lines — yet the message states "4 lines": the message does not state the
block's line count. -/
theorem C6_counterexample :
    check_duplicate_code dupSrc 5 =
      [⟨1, 0, "duplicate_code", "Duplicate code block found (4 lines, 2 occurrences)",
        "info"⟩] ∧
    List.lookup dupBlock (blockHashes (splitLines dupSrc) 5) = some [(1, 5), (6, 10)] ∧
    blockContentLines (splitLines dupSrc) 0 5 = splitLines dupBlock ∧
    (splitLines dupBlock).length = 5 := by
  refine ⟨by decide, by decide, by decide, by decide⟩

/-- C6 as amended: the duplicate scan reports, per distinct digest with more
than one recorded window occurrence, exactly one `duplicate_code` info
issue, positioned at the recorded first occurrence, whose message states
the difference `first_end - first_start` — one *less* than the raw line
count of the recorded window — together with the total occurrence count;
digests are table keys, hence pairwise distinct, so no digest is reported
twice. -/
theorem C6_duplicate_code_amended (src : Str) (min_lines : Nat) :
    ((blockHashes (splitLines src) min_lines).map Prod.fst).Nodup ∧
    check_duplicate_code src min_lines =
      (blockHashes (splitLines src) min_lines).filterMap fun kv =>
        if kv.2.length > 1 then some (claimDupIssue kv) else none := by
  refine ⟨blockHashes_nodup_keys _ _, ?_⟩
  unfold check_duplicate_code report_duplicates
  rw [report_duplicates_eq_aux]
  · simp
  · simp
  · exact blockHashes_nodup_keys _ _

/-!
### Lemmas about the regular-expression engine
-/

theorem litRun_some {l : Str} {prev p' : Option Char} {s rest : Str}
    (h : litRun l prev s = some (p', rest)) : s = l ++ rest := by
  induction l generalizing prev s with
  | nil =>
    simp only [litRun, Option.some.injEq, Prod.mk.injEq] at h
    rw [h.2, List.nil_append]
  | cons c cs ih =>
    cases s with
    | nil => simp [litRun] at h
    | cons d t =>
      simp only [litRun] at h
      split_ifs at h with hc
      rw [List.cons_append, hc, ih h]

/-- The last character consumed by a literal, given the previous one. -/
def lastPrev : Str → Option Char → Option Char
  | [], prev => prev
  | c :: cs, _ => lastPrev cs (some c)

theorem litRun_append (l t : Str) (prev : Option Char) :
    litRun l prev (l ++ t) = some (lastPrev l prev, t) := by
  induction l generalizing prev with
  | nil => rfl
  | cons c cs ih => simp [litRun, lastPrev, ih]

theorem litRun_none {l s : Str} (prev : Option Char) (h : ¬ l <+: s) :
    litRun l prev s = none := by
  cases hl : litRun l prev s with
  | none => rfl
  | some st =>
    obtain ⟨p', rest⟩ := st
    exact absurd ⟨rest, (litRun_some hl).symm⟩ h

theorem spanStates_nil (p : Char → Bool) (prev : Option Char) :
    spanStates p prev [] = [(prev, [])] := rfl

theorem spanStates_not {p : Char → Bool} {c : Char} (prev : Option Char) (t : Str)
    (hc : ¬ p c = true) : spanStates p prev (c :: t) = [(prev, c :: t)] := by
  simp [spanStates, hc]

theorem mem_spanStates_suffix {p : Char → Bool} :
    ∀ {s : Str} {prev : Option Char} {st : Option Char × Str},
      st ∈ spanStates p prev s → st.2 <:+ s := by
  intro s
  induction s with
  | nil =>
    intro prev st h
    simp only [spanStates, List.mem_singleton] at h
    subst h
    exact List.suffix_rfl
  | cons c t ih =>
    intro prev st h
    simp only [spanStates] at h
    split_ifs at h with hc
    · rcases List.mem_append.mp h with h | h
      · exact (ih h).trans (List.suffix_cons c t)
      · simp only [List.mem_singleton] at h
        subst h
        exact List.suffix_rfl
    · simp only [List.mem_singleton] at h
      subst h
      exact List.suffix_rfl

theorem reRun_cat (a b : RE) (prev : Option Char) (s : Str) :
    reRun (.cat a b) prev s =
      (reRun a prev s).flatMap (fun st => reRun b st.1 st.2) := rfl

theorem mem_reRun_cat {a b : RE} {prev : Option Char} {s : Str}
    {st : Option Char × Str} (h : st ∈ reRun (.cat a b) prev s) :
    ∃ st1 ∈ reRun a prev s, st ∈ reRun b st1.1 st1.2 := by
  simpa [reRun_cat, List.mem_flatMap] using h

theorem mem_reRun_bound {prev : Option Char} {s : Str} {st : Option Char × Str}
    (h : st ∈ reRun .bound prev s) : st = (prev, s) := by
  simp only [reRun] at h
  split_ifs at h with hb
  · simpa using h
  · simp at h

theorem mem_reRun_lit {l : Str} {prev : Option Char} {s : Str}
    {st : Option Char × Str} (h : st ∈ reRun (.lit l) prev s) :
    s = l ++ st.2 := by
  simp only [reRun] at h
  cases hl : litRun l prev s with
  | none => rw [hl] at h; simp at h
  | some st' =>
    rw [hl] at h
    simp only [List.mem_singleton] at h
    subst h
    exact litRun_some hl

theorem mem_reRun_plusCls {p : Char → Bool} {prev : Option Char} {s : Str}
    {st : Option Char × Str} (h : st ∈ reRun (.plusCls p) prev s) :
    ∃ c t, s = c :: t ∧ p c = true := by
  cases s with
  | nil => simp [reRun] at h
  | cons c t =>
    simp only [reRun] at h
    split_ifs at h with hc
    · exact ⟨c, t, rfl, hc⟩
    · simp at h

theorem mem_reRun_eol {prev : Option Char} {s : Str} {st : Option Char × Str}
    (h : st ∈ reRun .eol prev s) : s = [] ∨ s = ['\n'] := by
  match s, h with
  | [], _ => exact Or.inl rfl
  | ['\n'], _ => exact Or.inr rfl
  | c :: d :: t, h => simp [reRun] at h
  | [c], h =>
    simp only [reRun] at h
    split at h
    · exact Or.inl (by assumption)
    · exact Or.inr (by assumption)
    · simp at h

theorem mem_reRun_opt {r : RE} {prev : Option Char} {s : Str}
    {st : Option Char × Str} (h : st ∈ reRun (.opt r) prev s) :
    st ∈ reRun r prev s ∨ st = (prev, s) := by
  simp only [reRun, List.mem_append, List.mem_singleton] at h
  exact h

theorem mem_reRun_starCls {p : Char → Bool} {prev : Option Char} {s : Str}
    {st : Option Char × Str} (h : st ∈ reRun (.starCls p) prev s) :
    st.2 <:+ s :=
  mem_spanStates_suffix h

/-- A successful match of the from-import search pattern consumes at least
one whitespace character from the subject. -/
theorem fromImportRE_space {u : Str} {prev : Option Char} {s : Str}
    (h : reRun (fromImportRE u) prev s ≠ []) : ∃ c ∈ s, isPySpace c = true := by
  obtain ⟨st, hst⟩ := List.exists_mem_of_ne_nil _ h
  obtain ⟨st1, h1, hrest⟩ := mem_reRun_cat hst
  have hb := mem_reRun_bound h1
  subst hb
  obtain ⟨st2, h2, hrest2⟩ := mem_reRun_cat hrest
  have hfrom := mem_reRun_lit h2
  obtain ⟨st3, h3, _⟩ := mem_reRun_cat hrest2
  obtain ⟨c, t, hct, hc⟩ := mem_reRun_plusCls h3
  refine ⟨c, ?_, hc⟩
  have hs : s = "from".data ++ st2.2 := hfrom
  rw [hs, hct]
  exact List.mem_append.mpr (Or.inr (List.mem_cons_self _ _))

/-- The generic search driver returns `false` when no suffix of the subject
admits a match (for any preceding character). -/
theorem reSearchAux_eq_false (r : RE) :
    ∀ (s : Str) (prev : Option Char),
      (∀ (p' : Option Char) (t : Str), t <:+ s → reRun r p' t = []) →
      reSearchAux r prev s = false := by
  intro s
  induction s with
  | nil =>
    intro prev h
    simp [reSearchAux, h prev [] List.suffix_rfl]
  | cons c t ih =>
    intro prev h
    simp only [reSearchAux, Bool.or_eq_false_iff]
    constructor
    · simp [h prev (c :: t) List.suffix_rfl]
    · exact ih (some c) fun p' u hu => h p' u (hu.trans (List.suffix_cons c t))

/-- `re.search` of the from-import pattern fails on any line without
whitespace. -/
theorem fromImportRE_search_no_space (u : Str) (line : Str)
    (h : ∀ c ∈ line, isPySpace c = false) :
    reSearchB (fromImportRE u) line = false := by
  apply reSearchAux_eq_false
  intro p' t ht
  by_contra hne
  obtain ⟨c, hc, hcs⟩ := fromImportRE_space hne
  have := h c (ht.subset hc)
  rw [this] at hcs
  exact absurd hcs (by simp)

theorem word_not_space {c : Char} (h : isWordChar c = true) : isPySpace c = false := by
  by_contra hs
  rw [Bool.not_eq_false] at hs
  unfold isPySpace at hs
  simp only [Bool.or_eq_true, decide_eq_true_eq] at hs
  rcases hs with ((((h1 | h2) | h3) | h4) | h5) | h6 <;> subst_vars <;>
    exact absurd h (by decide)

theorem word_ne_newline {c : Char} (h : isWordChar c = true) : c ≠ '\n' := by
  intro hc
  subst hc
  exact absurd h (by decide)

theorem isIdentS_spec {s : String} (h : isIdentS s = true) :
    s.data ≠ [] ∧ ∀ c ∈ s.data, isWordChar c = true := by
  unfold isIdentS at h
  simp only [Bool.and_eq_true, List.all_eq_true] at h
  refine ⟨?_, h.2⟩
  intro hnil
  rw [hnil] at h
  simpa using h.1

theorem reRun_starCls (p : Char → Bool) (prev : Option Char) (s : Str) :
    reRun (.starCls p) prev s = spanStates p prev s := rfl

theorem flatMap_singleton {α β : Type} (x : α) (f : α → List β) :
    ([x]).flatMap f = f x := by simp

theorem reRun_lit_self (l : Str) (prev : Option Char) :
    reRun (.lit l) prev l = [(lastPrev l prev, [])] := by
  have h1 := litRun_append l [] prev
  rw [List.append_nil] at h1
  simp [reRun, h1]

theorem reRun_eol_cons_ne {prev : Option Char} {d : Char} {rt : Str}
    (hd : d ≠ '\n') : reRun RE.eol prev (d :: rt) = [] := by
  cases rt with
  | nil =>
    simp only [reRun]
    split
    · simp_all
    · rename_i heq
      injection heq with h1 _
      exact absurd h1 hd
    · rfl
  | cons e et => simp only [reRun]

/-- Head characters that are neither whitespace nor `i` make the
`^\s*import…` pattern fail immediately. -/
theorem importLineRE_no_match_head (u : Str) {c : Char} (t : Str)
    (hc1 : isPySpace c = false) (hc2 : c ≠ 'i') :
    reMatchB (importLineRE u) (c :: t) = false := by
  unfold reMatchB importLineRE
  rw [reRun_cat, reRun_starCls, spanStates_not none t (by simp [hc1]),
    flatMap_singleton, reRun_cat,
    show reRun (.lit "import".data) none (c :: t) = [] from by
      simp only [reRun]
      cases hl : litRun "import".data none (c :: t) with
      | none => rfl
      | some st =>
        have hthis := litRun_some hl
        rw [show ("import".data : Str) = 'i' :: "mport".data from rfl,
          List.cons_append] at hthis
        injection hthis with h1 _
        exact absurd h1 hc2]
  simp

/-- On the rendered line `import NAME` (with `NAME` a nonempty word), the
`^\s*import\s+{u}\s*$` pattern matches exactly when `u` is that name. -/
theorem importLineRE_import_line (u n : Str) (hne : n ≠ [])
    (hw : ∀ c ∈ n, isWordChar c = true) :
    reMatchB (importLineRE u) ("import ".data ++ n) = (u == n) := by
  obtain ⟨c, nt, rfl⟩ : ∃ c nt, n = c :: nt := by
    cases n with
    | nil => exact absurd rfl hne
    | cons c nt => exact ⟨c, nt, rfl⟩
  have hcw := hw c (List.mem_cons_self _ _)
  unfold reMatchB importLineRE
  rw [show ("import ".data ++ (c :: nt) : Str) =
      'i' :: ("mport".data ++ (' ' :: c :: nt)) from by simp,
    reRun_cat, reRun_starCls, spanStates_not none _ (by decide), flatMap_singleton,
    reRun_cat,
    show ('i' :: ("mport".data ++ (' ' :: c :: nt)) : Str) =
      "import".data ++ (' ' :: c :: nt) from by simp,
    show reRun (.lit "import".data) none ("import".data ++ (' ' :: c :: nt)) =
      [(lastPrev "import".data none, ' ' :: c :: nt)] from by
        simp only [reRun]
        rw [litRun_append],
    flatMap_singleton, reRun_cat,
    show reRun (.plusCls isPySpace) (lastPrev "import".data none)
        (' ' :: c :: nt) = spanStates isPySpace (some ' ') (c :: nt) from by
      simp only [reRun]
      rw [if_pos (by decide)],
    spanStates_not (some ' ') nt (by simp [word_not_space hcw]),
    flatMap_singleton, reRun_cat]
  by_cases hu : u = c :: nt
  · rw [show reRun (.lit u) (some ' ') (c :: nt) =
        [(lastPrev u (some ' '), [])] from by
      rw [← hu]
      exact reRun_lit_self u (some ' '),
      flatMap_singleton, reRun_cat, reRun_starCls, spanStates_nil,
      flatMap_singleton]
    simp [reRun, hu]
  · rw [show (u == c :: nt) = false from by simp [hu]]
    by_cases hpre : u <+: c :: nt
    · obtain ⟨rest, hrest⟩ := hpre
      have hrestne : rest ≠ [] := by
        intro h0
        rw [h0, List.append_nil] at hrest
        exact hu hrest
      obtain ⟨d, rt, rfl⟩ : ∃ d rt, rest = d :: rt := by
        cases rest with
        | nil => exact absurd rfl hrestne
        | cons d rt => exact ⟨d, rt, rfl⟩
      have hd : isWordChar d = true := by
        apply hw
        rw [← hrest]
        exact List.mem_append.mpr (Or.inr (List.mem_cons_self _ _))
      rw [show reRun (.lit u) (some ' ') (c :: nt) =
          [(lastPrev u (some ' '), d :: rt)] from by
        rw [← hrest]
        simp [reRun, litRun_append],
        flatMap_singleton, reRun_cat, reRun_starCls,
        spanStates_not (lastPrev u (some ' ')) rt (by simp [word_not_space hd]),
        flatMap_singleton, reRun_eol_cons_ne (word_ne_newline hd)]
      rfl
    · rw [show reRun (.lit u) (some ' ') (c :: nt) = [] from by
        simp [reRun, litRun_none (some ' ') hpre]]
      rfl

theorem suffix_append_cases {α : Type} {t l₁ l₂ : List α} (h : t <:+ l₁ ++ l₂) :
    (∃ b, b <:+ l₁ ∧ b ≠ [] ∧ t = b ++ l₂) ∨ t <:+ l₂ := by
  induction l₁ with
  | nil => right; simpa using h
  | cons x xs ih =>
    rw [List.cons_append] at h
    rcases List.suffix_cons_iff.mp h with h | h
    · left
      exact ⟨x :: xs, List.suffix_rfl, by simp, by rw [h, List.cons_append]⟩
    · rcases ih h with ⟨b, hb1, hb2, hb3⟩ | h
      · left
        exact ⟨b, hb1.trans (List.suffix_cons x xs), hb2, hb3⟩
      · right
        exact h

/-- The from-import search pattern never matches the rendered line
`import NAME`: any `from` occurrence would have to sit inside the word
characters of `NAME`, where no whitespace can follow it. -/
theorem fromImportRE_no_match_import_line (u : Str) (n : Str)
    (hw : ∀ c ∈ n, isWordChar c = true) :
    reSearchB (fromImportRE u) ("import ".data ++ n) = false := by
  apply reSearchAux_eq_false
  intro p' t ht
  by_contra hne
  obtain ⟨st, hst⟩ := List.exists_mem_of_ne_nil _ hne
  obtain ⟨st1, h1, hrest⟩ := mem_reRun_cat hst
  have hb := mem_reRun_bound h1
  subst hb
  obtain ⟨st2, h2, hrest2⟩ := mem_reRun_cat hrest
  have hfrom : t = "from".data ++ st2.2 := mem_reRun_lit h2
  obtain ⟨st3, h3, _⟩ := mem_reRun_cat hrest2
  obtain ⟨c, t', hct, hc⟩ := mem_reRun_plusCls h3
  rcases suffix_append_cases ht with ⟨b, hb1, hb2, hb3⟩ | hsufn
  · cases b with
    | nil => exact hb2 rfl
    | cons x xs =>
      have heq : x :: (xs ++ n) = 'f' :: ("rom".data ++ st2.2) := by
        rw [← List.cons_append, ← hb3, hfrom]
        rfl
      have hx : x = 'f' := by injection heq
      have hxmem : x ∈ "import ".data := hb1.subset (List.mem_cons_self x xs)
      rw [hx] at hxmem
      exact absurd hxmem (by decide)
  · have hcmem : c ∈ n := by
      apply hsufn.subset
      have hs : t = "from".data ++ (c :: t') := by rw [hfrom, hct]
      rw [hs]
      exact List.mem_append.mpr (Or.inr (List.mem_cons_self _ _))
    have hword := hw c hcmem
    rw [word_not_space hword] at hc
    exact absurd hc (by simp)

/-!
### Line-level behaviour of `remove_unused_imports` on the restricted family
-/

theorem mem_joinSep {sep : Str} {L : List Str} {c : Char}
    (h : c ∈ joinSep sep L) : c ∈ sep ∨ ∃ l ∈ L, c ∈ l := by
  induction L with
  | nil => simp [joinSep] at h
  | cons x t ih =>
    cases t with
    | nil =>
      right
      exact ⟨x, by simp, by simpa [joinSep] using h⟩
    | cons y t2 =>
      rw [joinSep] at h
      rcases List.mem_append.mp h with h | h
      · rcases List.mem_append.mp h with h | h
        · right; exact ⟨x, by simp, h⟩
        · left; exact h
      · rcases ih h with h | ⟨l, hl, hc⟩
        · left; exact h
        · right; exact ⟨l, by simp [hl], hc⟩

theorem renderLine_use_eq (ns : List String) :
    renderLine (.use ns) =
      'p' :: ("rint(".data ++ joinSep ",".data (ns.map (·.data)) ++ ")".data) := rfl

theorem use_line_no_space (ns : List String)
    (hns : ∀ x ∈ ns, isIdentS x = true) :
    ∀ c ∈ renderLine (.use ns), isPySpace c = false := by
  intro c hc
  unfold renderLine at hc
  rcases List.mem_append.mp hc with hc | hc
  · rcases List.mem_append.mp hc with hc | hc
    · exact (by decide : ∀ x ∈ "print(".data, isPySpace x = false) c hc
    · rcases mem_joinSep hc with hc | ⟨l, hl, hcl⟩
      · exact (by decide : ∀ x ∈ ",".data, isPySpace x = false) c hc
      · obtain ⟨x, hx, rfl⟩ := List.mem_map.mp hl
        exact word_not_space ((isIdentS_spec (hns x hx)).2 c hcl)
  · exact (by decide : ∀ x ∈ ")".data, isPySpace x = false) c hc

theorem removeLoop_use_line (us : List Str) (ns : List String)
    (hns : ∀ x ∈ ns, isIdentS x = true) :
    removeLoopOnLine us (renderLine (.use ns)) =
      (true, renderLine (.use ns), []) := by
  induction us with
  | nil => rfl
  | cons u rest ih =>
    unfold removeLoopOnLine
    rw [show reMatchB (importLineRE u) (renderLine (.use ns)) = false from by
        rw [renderLine_use_eq]
        exact importLineRE_no_match_head u _ (by decide) (by decide),
      fromImportRE_search_no_space u _ (use_line_no_space ns hns)]
    rw [if_neg (by simp), if_neg (by simp)]
    exact ih

theorem removeLoop_import_line (us : List Str) (n : String)
    (hn : isIdentS n = true) :
    removeLoopOnLine us (renderLine (.imp n)) =
      if n.data ∈ us then (false, renderLine (.imp n), [n.data])
      else (true, renderLine (.imp n), []) := by
  obtain ⟨hne, hw⟩ := isIdentS_spec hn
  induction us with
  | nil => simp [removeLoopOnLine]
  | cons u rest ih =>
    unfold removeLoopOnLine
    have hm : reMatchB (importLineRE u) (renderLine (.imp n)) = (u == n.data) := by
      unfold renderLine
      exact importLineRE_import_line u n.data hne hw
    by_cases hu : u = n.data
    · rw [hm, show (u == n.data) = true from by simp [hu],
        if_pos rfl, if_pos (by rw [hu]; exact List.mem_cons_self _ _), hu]
    · have hneq : ¬(n.data = u) := fun h => hu h.symm
      rw [hm, show (u == n.data) = false from by simp [hu], if_neg (by simp),
        show reSearchB (fromImportRE u) (renderLine (.imp n)) = false from by
          unfold renderLine
          exact fromImportRE_no_match_import_line u n.data hw,
        if_neg (by simp), ih]
      by_cases hmem : n.data ∈ rest
      · rw [if_pos hmem, if_pos (List.mem_cons_of_mem _ hmem)]
      · rw [if_neg hmem, if_neg (by simp [List.mem_cons, hneq, hmem])]

/-!
### Splitting the rendered program back into its lines
-/

theorem splitLinesAux_cons (cur : Str) (c : Char) (t : Str) :
    splitLinesAux cur (c :: t) =
      if c = '\n' then
        cur.reverse :: (match t with | [] => [] | _ :: _ => splitLinesAux [] t)
      else splitLinesAux (c :: cur) t := rfl

theorem splitLinesAux_no_newline (l : Str) (h : '\n' ∉ l) :
    ∀ cur, splitLinesAux cur l = [cur.reverse ++ l] := by
  induction l with
  | nil => intro cur; simp [splitLinesAux]
  | cons c t ih =>
    intro cur
    have hc : c ≠ '\n' := fun hc => h (hc ▸ List.mem_cons_self c t)
    rw [splitLinesAux_cons, if_neg hc,
      ih (fun hm => h (List.mem_cons_of_mem _ hm)) (c :: cur)]
    simp

theorem splitLinesAux_line (l rest : Str) (h : '\n' ∉ l) (hrest : rest ≠ []) :
    ∀ cur, splitLinesAux cur (l ++ '\n' :: rest) =
      (cur.reverse ++ l) :: splitLinesAux [] rest := by
  induction l with
  | nil =>
    intro cur
    rw [List.nil_append, splitLinesAux_cons, if_pos rfl]
    cases rest with
    | nil => exact absurd rfl hrest
    | cons r t => simp
  | cons c t ih =>
    intro cur
    have hc : c ≠ '\n' := fun hc => h (hc ▸ List.mem_cons_self c t)
    rw [List.cons_append, splitLinesAux_cons, if_neg hc,
      ih (fun hm => h (List.mem_cons_of_mem _ hm)) (c :: cur)]
    simp

theorem joinLines_ne_nil (l : Str) (t : List Str) (h : l ≠ []) :
    joinLines (l :: t) ≠ [] := by
  cases t with
  | nil => simpa [joinLines] using h
  | cons l2 t2 => simp [joinLines]

theorem splitLines_eq_aux (s : Str) (h : s ≠ []) :
    splitLines s = splitLinesAux [] s := by
  cases s with
  | nil => exact absurd rfl h
  | cons c t => rfl

theorem splitLines_joinLines (ls : List Str)
    (h : ∀ l ∈ ls, l ≠ [] ∧ '\n' ∉ l) :
    splitLines (joinLines ls) = ls := by
  induction ls with
  | nil => rfl
  | cons l t ih =>
    obtain ⟨hne, hnn⟩ := h l (List.mem_cons_self _ _)
    cases t with
    | nil =>
      rw [show joinLines [l] = l from rfl, splitLines_eq_aux l hne,
        splitLinesAux_no_newline l hnn []]
      simp
    | cons l2 t2 =>
      have hrest : joinLines (l2 :: t2) ≠ [] :=
        joinLines_ne_nil l2 t2 (h l2 (by simp)).1
      rw [show joinLines (l :: l2 :: t2) = l ++ '\n' :: joinLines (l2 :: t2)
          from rfl,
        splitLines_eq_aux _ (by
          cases hl : l with
          | nil => exact absurd hl hne
          | cons c cs => simp),
        splitLinesAux_line l _ hnn hrest []]
      rw [← splitLines_eq_aux _ hrest,
        ih (fun x hx => h x (List.mem_cons_of_mem _ hx))]
      simp

theorem renderLine_ne_nil (l : SrcLine) : renderLine l ≠ [] := by
  cases l <;> simp [renderLine]

theorem renderLine_no_newline (l : SrcLine) (hl : wfLineB l = true) :
    '\n' ∉ renderLine l := by
  cases l with
  | imp n =>
    intro hmem
    unfold renderLine at hmem
    rcases List.mem_append.mp hmem with hc | hc
    · exact absurd hc (by decide)
    · unfold wfLineB at hl
      exact absurd rfl (word_ne_newline ((isIdentS_spec hl).2 _ hc))
  | use ns =>
    intro hmem
    unfold wfLineB at hl
    rw [List.all_eq_true] at hl
    have := use_line_no_space ns (fun x hx => hl x hx) _ hmem
    exact absurd this (by decide)

theorem splitLines_progSrc (prog : List SrcLine) (hwf : wfProgB prog = true) :
    splitLines (progSrc prog) = prog.map renderLine := by
  unfold progSrc
  apply splitLines_joinLines
  intro l hl
  obtain ⟨sl, hsl, rfl⟩ := List.mem_map.mp hl
  have hw : wfLineB sl = true := by
    unfold wfProgB at hwf
    rw [List.all_eq_true] at hwf
    exact hwf sl hsl
  exact ⟨renderLine_ne_nil sl, renderLine_no_newline sl hw⟩

theorem wfProgB_line {prog : List SrcLine} (hwf : wfProgB prog = true)
    {l : SrcLine} (hl : l ∈ prog) : wfLineB l = true := by
  unfold wfProgB at hwf
  rw [List.all_eq_true] at hwf
  exact hwf l hl

/-- On a well-formed restricted program, the refactorer drops exactly the
`import NAME` lines whose name was requested, and keeps every other line
verbatim. -/
theorem remove_unused_imports_prog (prog : List SrcLine) (us : List Str)
    (hwf : wfProgB prog = true) :
    (remove_unused_imports (progSrc prog) us).refactored_code =
      progSrc (prog.filter fun l =>
        match l with
        | .imp n => !(us.contains n.data)
        | .use _ => true) := by
  show joinLines
      ((((splitLines (progSrc prog)).map (removeLoopOnLine us)).filterMap
        fun r => if r.1 then some r.2.1 else none)) = _
  rw [splitLines_progSrc prog hwf]
  unfold progSrc
  congr 1
  induction prog with
  | nil => rfl
  | cons l t ih =>
    have hwl : wfLineB l = true := wfProgB_line hwf (List.mem_cons_self _ _)
    have hwt : wfProgB t = true := by
      unfold wfProgB at hwf ⊢
      rw [List.all_eq_true] at hwf ⊢
      exact fun x hx => hwf x (List.mem_cons_of_mem _ hx)
    rw [List.map_cons, List.map_cons]
    cases l with
    | imp n =>
      rw [removeLoop_import_line us n hwl]
      by_cases hmem : n.data ∈ us
      · have hc : us.contains n.data = true := List.elem_iff.mpr hmem
        rw [if_pos hmem,
          List.filterMap_cons_none (by rfl),
          List.filter_cons_of_neg (by
            show ¬((!us.contains n.data) = true)
            rw [hc]
            decide)]
        exact ih hwt
      · have hc : us.contains n.data = false := by
          rw [← Bool.not_eq_true]
          intro h'
          exact hmem (List.elem_iff.mp h')
        rw [if_neg hmem,
          List.filterMap_cons_some (by rfl),
          List.filter_cons_of_pos (by
            show (!us.contains n.data) = true
            rw [hc]
            decide),
          List.map_cons, ih hwt]
    | use ns =>
      rw [removeLoop_use_line us ns (fun x hx => by
        unfold wfLineB at hwl
        rw [List.all_eq_true] at hwl
        exact hwl x hx),
        List.filterMap_cons_some (by rfl),
        List.filter_cons_of_pos (by rfl),
        List.map_cons, ih hwt]

/-!
### The unused-import analysis on the restricted family
-/

theorem mem_insertSet {s : List String} {x y : String} :
    x ∈ insertSet s y ↔ x ∈ s ∨ x = y := by
  unfold insertSet
  split_ifs with h
  · constructor
    · exact Or.inl
    · rintro (hx | rfl)
      · exact hx
      · exact h
  · simp

theorem mem_usedStep {acc : List String} {m : PyNode} {x : String} :
    x ∈ usedStep acc m ↔ x ∈ acc ∨ x ∈ nameContrib m := by
  cases m <;>
    first
    | (rename_i v a ln cl
       cases v <;> simp [usedStep, nameContrib, mem_insertSet])
    | simp [usedStep, nameContrib, mem_insertSet]

theorem mem_foldl_usedStep (l : List PyNode) :
    ∀ (acc : List String) (x : String),
      x ∈ l.foldl usedStep acc ↔ x ∈ acc ∨ ∃ n ∈ l, x ∈ nameContrib n := by
  induction l with
  | nil => simp
  | cons m t ih =>
    intro acc x
    rw [List.foldl_cons, ih]
    constructor
    · rintro (h | ⟨n, hn, hx⟩)
      · rcases mem_usedStep.mp h with h | h
        · exact Or.inl h
        · exact Or.inr ⟨m, List.mem_cons_self _ _, h⟩
      · exact Or.inr ⟨n, List.mem_cons_of_mem _ hn, hx⟩
    · rintro (h | ⟨n, hn, hx⟩)
      · exact Or.inl (mem_usedStep.mpr (Or.inl h))
      · rcases List.mem_cons.mp hn with rfl | hn
        · exact Or.inl (mem_usedStep.mpr (Or.inr hx))
        · exact Or.inr ⟨n, hn, hx⟩

theorem mem_usedNames {tree : PyNode} {x : String} :
    x ∈ usedNames tree ↔ ∃ n ∈ walk tree, x ∈ nameContrib n := by
  unfold usedNames
  rw [mem_foldl_usedStep]
  simp

theorem assocUpdate_keys (m : List (String × PyNode)) (k : String) (v : PyNode) :
    (assocUpdate m k v).map Prod.fst =
      if k ∈ m.map Prod.fst then m.map Prod.fst else m.map Prod.fst ++ [k] := by
  induction m with
  | nil => simp [assocUpdate]
  | cons kv t ih =>
    obtain ⟨k', v'⟩ := kv
    by_cases hk : k' = k
    · simp [assocUpdate, hk]
    · have hk' : ¬(k = k') := fun h => hk h.symm
      by_cases hmem : k ∈ t.map Prod.fst <;>
        simp [assocUpdate, hk, hk', hmem, ih]

theorem keys_mem_iff {m : List (String × PyNode)} {x : String} :
    (∃ w, (x, w) ∈ m) ↔ x ∈ m.map Prod.fst := by
  constructor
  · rintro ⟨w, hw⟩
    exact List.mem_map.mpr ⟨(x, w), hw, rfl⟩
  · intro h
    obtain ⟨⟨a, b⟩, hab, rfl⟩ := List.mem_map.mp h
    exact ⟨b, hab⟩

theorem mem_assocUpdate_keys {m : List (String × PyNode)} {k : String}
    {v : PyNode} {x : String} :
    (∃ w, (x, w) ∈ assocUpdate m k v) ↔ (∃ w, (x, w) ∈ m) ∨ x = k := by
  rw [keys_mem_iff, keys_mem_iff, assocUpdate_keys]
  by_cases hmem : k ∈ m.map Prod.fst
  · rw [if_pos hmem]
    constructor
    · exact Or.inl
    · rintro (h | rfl)
      · exact h
      · exact hmem
  · rw [if_neg hmem]
    simp [List.mem_append]

theorem mem_foldl_assocUpdate_keys (names : List PyAlias) (n : PyNode) :
    ∀ (acc : List (String × PyNode)) (x : String),
      (∃ w, (x, w) ∈ names.foldl (fun acc a => assocUpdate acc (aliasBound a) n) acc)
        ↔ (∃ w, (x, w) ∈ acc) ∨ x ∈ names.map aliasBound := by
  induction names with
  | nil => simp
  | cons a t ih =>
    intro acc x
    rw [List.foldl_cons, ih]
    rw [mem_assocUpdate_keys]
    simp only [List.map_cons, List.mem_cons]
    tauto

theorem mem_keys_importStep {acc : List (String × PyNode)} {m : PyNode}
    {x : String} :
    (∃ w, (x, w) ∈ importStep acc m) ↔
      (∃ w, (x, w) ∈ acc) ∨ x ∈ bindContrib m := by
  cases m with
  | Import names ln cl => exact mem_foldl_assocUpdate_keys names _ acc x
  | ImportFrom md names ln cl => exact mem_foldl_assocUpdate_keys names _ acc x
  | _ => simp [importStep, bindContrib]

theorem mem_foldl_importStep (l : List PyNode) :
    ∀ (acc : List (String × PyNode)) (x : String),
      (∃ w, (x, w) ∈ l.foldl importStep acc) ↔
        (∃ w, (x, w) ∈ acc) ∨ ∃ n ∈ l, x ∈ bindContrib n := by
  induction l with
  | nil => simp
  | cons m t ih =>
    intro acc x
    rw [List.foldl_cons, ih]
    constructor
    · rintro (h | ⟨n, hn, hx⟩)
      · rcases mem_keys_importStep.mp h with h | h
        · exact Or.inl h
        · exact Or.inr ⟨m, List.mem_cons_self _ _, h⟩
      · exact Or.inr ⟨n, List.mem_cons_of_mem _ hn, hx⟩
    · rintro (h | ⟨n, hn, hx⟩)
      · exact Or.inl (mem_keys_importStep.mpr (Or.inl h))
      · rcases List.mem_cons.mp hn with rfl | hn
        · exact Or.inl (mem_keys_importStep.mpr (Or.inr hx))
        · exact Or.inr ⟨n, hn, hx⟩

theorem mem_keys_collectImports {tree : PyNode} {x : String} :
    (∃ w, (x, w) ∈ collectImports tree) ↔
      ∃ n ∈ walk tree, x ∈ bindContrib n := by
  unfold collectImports
  rw [mem_foldl_importStep]
  simp

theorem mem_unusedImportNames {tree : PyNode} {x : String} :
    x ∈ unusedImportNames tree ↔
      (∃ n ∈ walk tree, x ∈ bindContrib n) ∧ x ≠ "*" ∧ x ∉ usedNames tree := by
  unfold unusedImportNames unusedImports
  constructor
  · intro hx
    obtain ⟨⟨k, w⟩, hkv, hkx⟩ := List.mem_map.mp hx
    obtain ⟨hmem, hp⟩ := List.mem_filter.mp hkv
    simp only at hkx
    subst hkx
    simp only [Bool.and_eq_true, Bool.not_eq_true', beq_eq_false_iff_ne, ne_eq,
      decide_eq_false_iff_not] at hp
    exact ⟨mem_keys_collectImports.mp ⟨w, hmem⟩, hp.1, hp.2⟩
  · rintro ⟨hbind, hstar, hunused⟩
    obtain ⟨w, hw⟩ := mem_keys_collectImports.mpr hbind
    refine List.mem_map.mpr ⟨(x, w), List.mem_filter.mpr ⟨hw, ?_⟩, rfl⟩
    simp only [Bool.and_eq_true, Bool.not_eq_true', beq_eq_false_iff_ne, ne_eq,
      decide_eq_false_iff_not]
    exact ⟨hstar, hunused⟩

theorem walkList_names (ns : List String) (i : Nat) :
    walkList (ns.map fun x => PyNode.Name x i 6) =
      ns.map fun x => PyNode.Name x i 6 := by
  induction ns with
  | nil => rfl
  | cons x t ih => simp [walkList, walk, ih]

theorem contrib_lineNode_used (l : SrcLine) (i : Nat) (x : String) :
    (∃ n ∈ walk (lineNode l i), x ∈ nameContrib n) ↔
      x ∈ (match l with
        | .imp _ => ([] : List String)
        | .use ns => "print" :: ns) := by
  cases l with
  | imp n => simp [lineNode, walk, nameContrib]
  | use ns =>
    simp only [lineNode, walk, walkList_names]
    constructor
    · rintro ⟨m, hm, hx⟩
      rcases List.mem_cons.mp hm with rfl | hm
      · simp [nameContrib] at hx
      · rcases List.mem_cons.mp hm with rfl | hm
        · simp [nameContrib] at hx
        · rcases List.mem_append.mp hm with hm | hm
          · rcases List.mem_cons.mp hm with rfl | hm
            · simp only [nameContrib, List.mem_singleton] at hx
              subst hx
              exact List.mem_cons_self _ _
            · simp at hm
          · obtain ⟨y, hy, rfl⟩ := List.mem_map.mp hm
            simp only [nameContrib, List.mem_singleton] at hx
            subst hx
            exact List.mem_cons_of_mem _ hy
    · intro hx
      rcases List.mem_cons.mp hx with rfl | hx
      · refine ⟨.Name "print" i 0, ?_, by simp [nameContrib]⟩
        exact List.mem_cons_of_mem _ (List.mem_cons_of_mem _
          (List.mem_append.mpr (Or.inl (List.mem_cons_self _ _))))
      · refine ⟨.Name x i 6, ?_, by simp [nameContrib]⟩
        refine List.mem_cons_of_mem _ (List.mem_cons_of_mem _
          (List.mem_append.mpr (Or.inr ?_)))
        exact List.mem_map.mpr ⟨x, hx, rfl⟩

theorem contrib_lineNode_bind (l : SrcLine) (i : Nat) (x : String) :
    (∃ n ∈ walk (lineNode l i), x ∈ bindContrib n) ↔
      x ∈ (match l with
        | .imp n => [n]
        | .use _ => ([] : List String)) := by
  cases l with
  | imp n => simp [lineNode, walk, bindContrib, aliasBound]
  | use ns =>
    simp only [lineNode, walk, walkList_names]
    constructor
    · rintro ⟨m, hm, hx⟩
      rcases List.mem_cons.mp hm with rfl | hm
      · simp [bindContrib] at hx
      · rcases List.mem_cons.mp hm with rfl | hm
        · simp [bindContrib] at hx
        · rcases List.mem_append.mp hm with hm | hm
          · rcases List.mem_cons.mp hm with rfl | hm
            · simp [bindContrib] at hx
            · simp at hm
          · obtain ⟨y, hy, rfl⟩ := List.mem_map.mp hm
            simp [bindContrib] at hx
    · intro hx
      simp at hx

theorem contrib_progNodes_used (prog : List SrcLine) :
    ∀ (i : Nat) (x : String),
      (∃ n ∈ walkList (progNodes i prog), x ∈ nameContrib n) ↔ x ∈ progUses prog := by
  induction prog with
  | nil => simp [progNodes, walkList, progUses]
  | cons l t ih =>
    intro i x
    simp only [progNodes, walkList, progUses, List.flatMap_cons]
    constructor
    · rintro ⟨n, hn, hx⟩
      rcases List.mem_append.mp hn with hn | hn
      · exact List.mem_append.mpr (Or.inl ((contrib_lineNode_used l i x).mp ⟨n, hn, hx⟩))
      · refine List.mem_append.mpr (Or.inr ?_)
        rw [show (t.flatMap fun l => match l with
            | SrcLine.imp _ => ([] : List String)
            | SrcLine.use ns => "print" :: ns) = progUses t from rfl]
        exact (ih (i + 1) x).mp ⟨n, hn, hx⟩
    · intro hx
      rcases List.mem_append.mp hx with hx | hx
      · obtain ⟨n, hn, hnx⟩ := (contrib_lineNode_used l i x).mpr hx
        exact ⟨n, List.mem_append.mpr (Or.inl hn), hnx⟩
      · obtain ⟨n, hn, hnx⟩ := (ih (i + 1) x).mpr hx
        exact ⟨n, List.mem_append.mpr (Or.inr hn), hnx⟩

theorem contrib_progNodes_bind (prog : List SrcLine) :
    ∀ (i : Nat) (x : String),
      (∃ n ∈ walkList (progNodes i prog), x ∈ bindContrib n) ↔ x ∈ progBinds prog := by
  induction prog with
  | nil => simp [progNodes, walkList, progBinds]
  | cons l t ih =>
    intro i x
    simp only [progNodes, walkList, progBinds, List.flatMap_cons]
    constructor
    · rintro ⟨n, hn, hx⟩
      rcases List.mem_append.mp hn with hn | hn
      · exact List.mem_append.mpr (Or.inl ((contrib_lineNode_bind l i x).mp ⟨n, hn, hx⟩))
      · refine List.mem_append.mpr (Or.inr ?_)
        rw [show (t.flatMap fun l => match l with
            | SrcLine.imp n => [n]
            | SrcLine.use _ => ([] : List String)) = progBinds t from rfl]
        exact (ih (i + 1) x).mp ⟨n, hn, hx⟩
    · intro hx
      rcases List.mem_append.mp hx with hx | hx
      · obtain ⟨n, hn, hnx⟩ := (contrib_lineNode_bind l i x).mpr hx
        exact ⟨n, List.mem_append.mpr (Or.inl hn), hnx⟩
      · obtain ⟨n, hn, hnx⟩ := (ih (i + 1) x).mpr hx
        exact ⟨n, List.mem_append.mpr (Or.inr hn), hnx⟩

theorem mem_walk_progTree_used (prog : List SrcLine) (x : String) :
    (∃ n ∈ walk (progTree prog), x ∈ nameContrib n) ↔ x ∈ progUses prog := by
  unfold progTree
  rw [show walk (.Module (progNodes 1 prog)) =
      .Module (progNodes 1 prog) :: walkList (progNodes 1 prog) from rfl]
  constructor
  · rintro ⟨n, hn, hx⟩
    rcases List.mem_cons.mp hn with rfl | hn
    · simp [nameContrib] at hx
    · exact (contrib_progNodes_used prog 1 x).mp ⟨n, hn, hx⟩
  · intro hx
    obtain ⟨n, hn, hnx⟩ := (contrib_progNodes_used prog 1 x).mpr hx
    exact ⟨n, List.mem_cons_of_mem _ hn, hnx⟩

theorem mem_walk_progTree_bind (prog : List SrcLine) (x : String) :
    (∃ n ∈ walk (progTree prog), x ∈ bindContrib n) ↔ x ∈ progBinds prog := by
  unfold progTree
  rw [show walk (.Module (progNodes 1 prog)) =
      .Module (progNodes 1 prog) :: walkList (progNodes 1 prog) from rfl]
  constructor
  · rintro ⟨n, hn, hx⟩
    rcases List.mem_cons.mp hn with rfl | hn
    · simp [bindContrib] at hx
    · exact (contrib_progNodes_bind prog 1 x).mp ⟨n, hn, hx⟩
  · intro hx
    obtain ⟨n, hn, hnx⟩ := (contrib_progNodes_bind prog 1 x).mpr hx
    exact ⟨n, List.mem_cons_of_mem _ hn, hnx⟩

theorem progUses_progAfter (prog : List SrcLine) (U : List String) :
    progUses (progAfter prog U) = progUses prog := by
  unfold progAfter progUses
  induction prog with
  | nil => rfl
  | cons l t ih =>
    cases l with
    | imp n =>
      rw [List.filter_cons]
      split_ifs with h
      · rw [List.flatMap_cons, List.flatMap_cons, ih]
      · rw [List.flatMap_cons, List.nil_append, ih]
    | use ns =>
      rw [List.filter_cons_of_pos (by rfl), List.flatMap_cons, List.flatMap_cons, ih]

theorem mem_progBinds_progAfter (prog : List SrcLine) (U : List String)
    (x : String) :
    x ∈ progBinds (progAfter prog U) ↔ x ∈ progBinds prog ∧ ¬(U.contains x = true) := by
  unfold progAfter progBinds
  induction prog with
  | nil => simp
  | cons l t ih =>
    cases l with
    | imp n =>
      rw [List.filter_cons]
      split_ifs with h
      · rw [List.flatMap_cons, List.flatMap_cons]
        simp only [List.mem_append, List.mem_singleton, ih]
        constructor
        · rintro (rfl | ⟨hb, hu⟩)
          · exact ⟨Or.inl rfl, by simpa [progKeep] using h⟩
          · exact ⟨Or.inr hb, hu⟩
        · rintro ⟨(rfl | hb), hu⟩
          · exact Or.inl rfl
          · exact Or.inr ⟨hb, hu⟩
      · rw [ih, List.flatMap_cons]
        simp only [List.mem_append, List.mem_singleton]
        constructor
        · rintro ⟨hb, hu⟩
          exact ⟨Or.inr hb, hu⟩
        · rintro ⟨(rfl | hb), hu⟩
          · exact absurd (by simpa [progKeep] using h) hu
          · exact ⟨hb, hu⟩
    | use ns =>
      rw [List.filter_cons_of_pos (by rfl), List.flatMap_cons, List.flatMap_cons]
      simpa using ih

theorem contains_eq_true_of_mem {α : Type} [BEq α] [LawfulBEq α]
    {L : List α} {a : α} (h : a ∈ L) : L.contains a = true :=
  List.elem_iff.mpr h

theorem contains_eq_false_of_not_mem {α : Type} [BEq α] [LawfulBEq α]
    {L : List α} {a : α} (h : a ∉ L) : L.contains a = false := by
  rw [← Bool.not_eq_true]
  intro hc
  exact h (List.elem_iff.mp hc)

/-- C2 counterexamples, two independent failure shapes.  (1) On
`import os, sys` followed by `print(sys.version)`, the analyzer reports
exactly `os` as unused, but `remove_unused_imports` with `["os"]` returns
the text verbatim (the comma-separated plain import line matches neither
removal pattern) and reports no removal, so re-analyzing the refactored
text still reports `os` — not zero issues as the claim states.  (2) On an
indented single-name import, `if True:` with `import os` in its body, the
analyzer again reports `os`, and this time the `^\s*import\s+os\s*$`
pattern DOES match the indented line, which is dropped whole: the
refactored text is the bare `if True:`, no longer a parseable program, so
re-analysis raises a syntax error rather than reporting zero issues. -/
theorem C2_unused_import_round_trip_counterexample :
    unusedImportNames multiImportTree = ["os"] ∧
    (remove_unused_imports multiImportSrc [("os").data]).refactored_code =
      multiImportSrc ∧
    (remove_unused_imports multiImportSrc [("os").data]).changes_made = [] ∧
    unusedImportNames
      (.Module [.If (.Constant 1 3) [.Import [⟨"os", none⟩] 2 4] [] 1 0]) =
      ["os"] ∧
    (remove_unused_imports ("if True:\n    import os").data
        [("os").data]).refactored_code = ("if True:").data :=
  ⟨by decide, by decide, by decide, by decide, by decide⟩

/-- C2 as amended: the round trip is proved exactly for programs of the
modelled family — every line is either a top-level unindented
`import NAME` binding a single unaliased identifier, or a top-level
`print(a,b,...)` expression over bare identifiers (the `SrcLine` programs,
whose rendered text re-parses to the filtered program after removal).  For
these, removing the analyzer-reported names yields the render of the
filtered program, and re-analysis reports no `unused_import` issue at all.
Independently, for EVERY tree, the analyzer's `unused_import` issues are
exactly one per binding-table entry whose name is neither `*` nor used.
Outside the family the round trip genuinely fails, not merely unproven
(both shapes in the counterexample theorem): a comma-separated
plain import line survives verbatim and its issue persists, and an indented
single-name import under `if True:` is dropped whole, leaving the
unparseable `if True:`, so re-analysis raises a syntax error. -/
theorem C2_unused_import_round_trip_amended (prog : List SrcLine)
    (hwf : wfProgB prog = true) :
    (remove_unused_imports (progSrc prog)
        ((unusedImportNames (progTree prog)).map String.data)).refactored_code =
      progSrc (progAfter prog (unusedImportNames (progTree prog))) ∧
    unusedImportNames
      (progTree (progAfter prog (unusedImportNames (progTree prog)))) = [] ∧
    (∀ tree : PyNode, check_unused_imports tree =
      (unusedImports tree).map fun kv =>
        (⟨nodeLineno kv.2, nodeCol kv.2, "unused_import",
          "Unused import: '" ++ kv.1 ++ "'", "info"⟩ : CodeIssue)) := by
  refine ⟨?_, ?_, ?_⟩
  · rw [remove_unused_imports_prog prog _ hwf]
    unfold progAfter
    congr 1
    apply List.filter_congr
    intro l _
    cases l with
    | use ns => rfl
    | imp n =>
      show (!(((unusedImportNames (progTree prog)).map String.data).contains n.data))
          = (!((unusedImportNames (progTree prog)).contains n))
      congr 1
      by_cases hmem : n ∈ unusedImportNames (progTree prog)
      · rw [contains_eq_true_of_mem hmem,
          contains_eq_true_of_mem (List.mem_map.mpr ⟨n, hmem, rfl⟩)]
      · rw [contains_eq_false_of_not_mem hmem,
          contains_eq_false_of_not_mem (by
            intro hc
            obtain ⟨y, hy, hyx⟩ := List.mem_map.mp hc
            exact hmem (String.ext hyx ▸ hy))]
  · rw [List.eq_nil_iff_forall_not_mem]
    intro x hx
    rw [mem_unusedImportNames] at hx
    obtain ⟨hbind, hstar, hunused⟩ := hx
    rw [mem_walk_progTree_bind, mem_progBinds_progAfter] at hbind
    obtain ⟨hbp, hnotU⟩ := hbind
    apply hnotU
    apply List.elem_iff.mpr
    rw [mem_unusedImportNames, mem_walk_progTree_bind]
    refine ⟨hbp, hstar, ?_⟩
    intro hused
    apply hunused
    rw [mem_usedNames, mem_walk_progTree_used, progUses_progAfter]
    rw [mem_usedNames, mem_walk_progTree_used] at hused
    exact hused
  · intro tree
    unfold check_unused_imports unusedImports
    apply filterMap_eq_filter_map
    intro kv
    by_cases h1 : kv.1 = "*"
    · rw [if_pos h1, if_neg (by simp [h1])]
    · rw [if_neg h1]
      by_cases h2 : kv.1 ∈ usedNames tree
      · rw [if_pos h2, if_neg (by simp [h1, h2])]
      · rw [if_neg h2, if_pos (by simp [h1, h2])]

/-- C2 witness: on `import os / import sys / print(sys)` the reported
unused name is removed and re-analysis is clean. -/
theorem C2_unused_import_round_trip_amended_witness :
    wfProgB [SrcLine.imp "os", SrcLine.imp "sys", SrcLine.use ["sys"]] = true ∧
    (remove_unused_imports
        (progSrc [SrcLine.imp "os", SrcLine.imp "sys", SrcLine.use ["sys"]])
        ((unusedImportNames (progTree [SrcLine.imp "os", SrcLine.imp "sys",
          SrcLine.use ["sys"]])).map String.data)).refactored_code =
      progSrc (progAfter [SrcLine.imp "os", SrcLine.imp "sys", SrcLine.use ["sys"]]
        (unusedImportNames (progTree [SrcLine.imp "os", SrcLine.imp "sys",
          SrcLine.use ["sys"]]))) ∧
    unusedImportNames (progTree (progAfter
      [SrcLine.imp "os", SrcLine.imp "sys", SrcLine.use ["sys"]]
      (unusedImportNames (progTree [SrcLine.imp "os", SrcLine.imp "sys",
        SrcLine.use ["sys"]])))) = [] :=
  ⟨by decide,
    (C2_unused_import_round_trip_amended
      [SrcLine.imp "os", SrcLine.imp "sys", SrcLine.use ["sys"]] (by decide)).1,
    (C2_unused_import_round_trip_amended
      [SrcLine.imp "os", SrcLine.imp "sys", SrcLine.use ["sys"]] (by decide)).2.1⟩

/-- Per line, the inner loop of `remove_unused_imports` removes and reports
exactly the first requested name whose pattern matches — never a second
one, because the loop breaks after its first match. -/
theorem removeLoopOnLine_removed (us : List Str) (line : Str) :
    (removeLoopOnLine us line).2.2 = (firstMatching us line).toList := by
  induction us with
  | nil => rfl
  | cons u rest ih =>
    unfold removeLoopOnLine firstMatching
    by_cases h1 : reMatchB (importLineRE u) line
    · rw [if_pos h1, List.find?_cons_of_pos _ (by simp [lineMatches, h1])]
      rfl
    · rw [if_neg h1]
      by_cases h2 : reSearchB (fromImportRE u) line
      · rw [if_pos h2, List.find?_cons_of_pos _ (by simp [lineMatches, h1, h2])]
        by_cases h3 : line.contains ','
        · rw [if_pos h3]
          rfl
        · rw [if_neg h3]
          rfl
      · rw [if_neg h2, List.find?_cons_of_neg _ (by simp [lineMatches, h1, h2])]
        exact ih

/-- C7 counterexample: requesting both `path` and `sep` on the line
`from os import path, sep` removes and reports only `path` (the first
requested name that matches); `sep` survives in the refactored text,
contradicting the claim that every requested name on the line is removed
and reported. -/
theorem C7_counterexample :
    (remove_unused_imports ("from os import path, sep").data
        [("path").data, ("sep").data]).refactored_code =
      ("from os import sep").data ∧
    (remove_unused_imports ("from os import path, sep").data
        [("path").data, ("sep").data]).changes_made =
      ["Removed unused import: path"] :=
  ⟨by decide, by decide⟩

/-- C7 as amended: per line the loop removes at most ONE requested name —
exactly the first in the requested list whose pattern matches, which is
also exactly what the change list reports for that line (proved in general
over all requested-name lists and all lines).  Comma handling is as the
code, not the claim, has it: a lone imported name drops the whole line, and
removing the leading name of a multi-name list consumes the following
comma; but removing an interior name consumes BOTH surrounding commas,
leaving the remaining names unseparated (`from x import a c`). -/
theorem C7_from_import_comma_list :
    (∀ (us : List Str) (line : Str),
      (removeLoopOnLine us line).2.2 = (firstMatching us line).toList) ∧
    (remove_unused_imports ("from os import path").data
        [("path").data]).refactored_code = [] ∧
    (remove_unused_imports ("from os import a, b").data
        [("a").data]).refactored_code = ("from os import b").data ∧
    (remove_unused_imports ("from x import a, b, c").data
        [("b").data]).refactored_code = ("from x import a c").data :=
  ⟨removeLoopOnLine_removed, by decide, by decide, by decide⟩

end CodeAnaly
